import Mathlib

/-!
# Shared-memory metrics hash set (`pkg/metrics/shm/hashset.go`)

A shallow embedding of the fixed-capacity, chained hash table that MOSN lays
over a shared-memory segment, and theorems about `hash`, `newHashSet`,
`Alloc` and `Free`.

Conventions of the embedding:

* `uint32` values are natural numbers; arithmetic that can wrap is reduced
  modulo `2 ^ 32` explicitly.
* A `*hashEntry` is the index of the record inside `hashSet.entry`; the nil
  pointer is `none`.
* A Go run-time panic (index out of range, division by zero, slice bounds out
  of range) is the outcome `panic`; a loop that never leaves a cyclic chain is
  the outcome `diverge`.
* The segment is presented through the three typed views that `newHashSet`
  lays over it: the entry records, the header and the bucket words.
-/

namespace Shm

/-! ## Constants and the hash function -/

/-- One byte of a Go string. -/
abbrev Byte := Fin 256

/-- FNV-1a offset basis. -/
def offset32 : Nat := 2166136261

/-- FNV-1a prime. -/
def prime32 : Nat := 16777619

/-- End-of-list marker of bucket chains and of the free list. -/
def sentinel : Nat := 0xffffffff

/-- The function `hash`: the accumulator is a `uint32`, so the product wraps. -/
def hash (key : List Byte) : Nat :=
  key.foldl (fun h b => ((h ^^^ b.val) * prime32) % 2 ^ 32) offset32

/-- Size of `meta`: five `uint32` fields. -/
def hashMetaSize : Nat := 20

/-- Modelled from the spec: the type `metricsEntry` is not among the sources, so
`unsafe.Sizeof(hashEntry{})` cannot be computed from them. The record is a
`metricsEntry` (120 bytes by the comment on the field), the 4-byte `next` and a
pad that fills the record up to the next multiple of 128 bytes. -/
def hashEntrySize : Nat := 128

/-! ## Data model -/

/-- Modelled from the spec: `hashEntry` embeds `metricsEntry`, whose declaration
is not among the sources. The spec gives it a name, an opaque value payload and
a reference count; `name` is the stored name as `getName` returns it. The pad
carries no information and is left out. -/
structure hashEntry where
  name : List Byte
  value : Nat
  ref : Nat
  next : Nat
  deriving DecidableEq

/-- The header `meta`. -/
structure meta where
  cap : Nat
  size : Nat
  freeIndex : Nat
  slotsNum : Nat
  bytesNum : Nat
  deriving DecidableEq

/-- The three views `hashSet` keeps on the segment. -/
structure hashSet where
  entry : List hashEntry
  meta : meta
  slots : List Nat
  deriving DecidableEq

/-- The value `hashEntry{}`. -/
def zeroEntry : hashEntry := { name := [], value := 0, ref := 0, next := 0 }

/-- Outcome of a call that may panic or loop forever. -/
inductive Res (α : Type) where
  | ok (a : α)
  | panic
  | diverge
  deriving DecidableEq

/-! ## Helpers of the entry record -/

/-- Modelled from the spec: `metricsEntry.equalName` is not among the sources;
it compares the stored name with the given bytes. -/
def equalName (e : hashEntry) (nameBytes : List Byte) : Bool :=
  decide (e.name = nameBytes)

/-- Modelled from the spec: `metricsEntry.assignName` is not among the sources;
it writes the given bytes as the stored name. -/
def assignName (e : hashEntry) (nameBytes : List Byte) : hashEntry :=
  { e with name := nameBytes }

/-- Modelled from the spec: `metricsEntry.getName` is not among the sources; it
returns the stored name. -/
def getName (e : hashEntry) : List Byte := e.name

/-- Modelled from the spec: `metricsEntry.decRef` is not among the sources; it
decrements the `uint32` reference count and reports whether it reached zero. -/
def decRef (e : hashEntry) : hashEntry × Bool :=
  let r := (e.ref + (2 ^ 32 - 1)) % 2 ^ 32
  ({ e with ref := r }, decide (r = 0))

/-- Write `v` to `entry[i].next`; the caller has already dereferenced `i`. -/
def setNext (es : List hashEntry) (i v : Nat) : List hashEntry :=
  match es[i]? with
  | some e => es.set i { e with next := v }
  | none => es

/-! ## Name conversion -/

/-- Digits of `strconv.Itoa` for a non-negative argument, most significant
first; `fuel` bounds the number of digits. -/
def itoaLoop : Nat → Nat → List Byte → List Byte
  | 0, _, acc => acc
  | fuel + 1, n, acc =>
    if n < 10 then (⟨48 + n % 10, by omega⟩ : Byte) :: acc
    else itoaLoop fuel (n / 10) ((⟨48 + n % 10, by omega⟩ : Byte) :: acc)

/-- The call `strconv.Itoa(int(h))` for a `uint32` `h` (`int` has 64 bits, so
the conversion keeps the value). -/
def itoa (n : Nat) : List Byte := itoaLoop (n + 1) n []

/-- The slice expression `name[k:]`: `none` is the slice-bounds panic. -/
def sliceFrom (name : List Byte) (k : Nat) : Option (List Byte) :=
  if k ≤ name.length then some (name.drop k) else none

/-- Lines 152-159 of `Alloc`: the name that is compared and stored. The constant
`maxNameLength` is not among the sources and is a parameter. -/
def convertName (maxNameLength : Nat) (h : Nat) (name : List Byte) :
    Option (List Byte) :=
  if maxNameLength < name.length then
    let hStr := itoa h
    match sliceFrom name (hStr.length + name.length - maxNameLength) with
    | some tail => some (hStr ++ tail)
    | none => none
  else some name

/-! ## Alloc -/

/-- Result of the search loop of `Alloc`. -/
inductive AllocWalk where
  | found (index : Nat)
  | ended (entry : Option Nat)
  | panic
  | diverge
  deriving DecidableEq

/-- The loop at lines 163-169. `index` is the loop variable and `entry` the
pointer left by the previous iteration. -/
def allocWalk (es : List hashEntry) (nameBytes : List Byte) :
    Nat → Nat → Option Nat → AllocWalk
  | 0, index, entry => if index = sentinel then .ended entry else .diverge
  | fuel + 1, index, entry =>
    if index = sentinel then .ended entry
    else
      match es[index]? with
      | none => .panic
      | some e =>
        if equalName e nameBytes then .found index
        else allocWalk es nameBytes fuel e.next (some index)

/-- The method `Alloc`. The result is the set afterwards, the returned pointer
and the `created` flag. A walk over `entry.length + 1` records without leaving
the chain has entered a cycle. -/
def Alloc (maxNameLength : Nat) (s : hashSet) (name : List Byte) :
    Res (hashSet × Option Nat × Bool) :=
  let h := hash name
  if s.meta.slotsNum = 0 then .panic
  else
    let slot := h % s.meta.slotsNum
    match convertName maxNameLength h name with
    | none => .panic
    | some nameBytes =>
      match s.slots[slot]? with
      | none => .panic
      | some head =>
        match allocWalk s.entry nameBytes (s.entry.length + 1) head none with
        | .found index => .ok (s, some index, false)
        | .panic => .panic
        | .diverge => .diverge
        | .ended entry =>
          if s.meta.size ≥ s.meta.cap then .ok (s, none, false)
          else
            let newIndex := s.meta.freeIndex
            match s.entry[newIndex]? with
            | none => .panic
            | some newEntry =>
              let es1 := s.entry.set newIndex { assignName newEntry nameBytes with ref := 1 }
              let es2 := match entry with
                | none => es1
                | some last => setNext es1 last newIndex
              let slots2 := match entry with
                | none => s.slots.set slot newIndex
                | some _ => s.slots
              match es2[newIndex]? with
              | none => .panic
              | some cur =>
                .ok ({ entry := es2.set newIndex { cur with next := sentinel },
                       meta := { s.meta with size := (s.meta.size + 1) % 2 ^ 32,
                                             freeIndex := cur.next },
                       slots := slots2 },
                     some newIndex, true)

/-! ## Free -/

/-- Result of the search loop of `Free`. -/
inductive FreeWalk where
  | stopped (index : Nat) (prev : Option Nat)
  | panic
  | diverge
  deriving DecidableEq

/-- The loop at lines 210-218: it stops at the record `entry` or at the
sentinel. -/
def freeWalk (es : List hashEntry) (entry : Nat) :
    Nat → Nat → Option Nat → FreeWalk
  | 0, index, prev => if index = sentinel then .stopped index prev else .diverge
  | fuel + 1, index, prev =>
    if index = sentinel then .stopped index prev
    else
      match es[index]? with
      | none => .panic
      | some target =>
        if index = entry then .stopped index prev
        else freeWalk es entry fuel target.next (some index)

/-- The method `Free`; `entry` is the index of the record the pointer refers
to. -/
def Free (s : hashSet) (entry : Nat) : Res hashSet :=
  match s.entry[entry]? with
  | none => .panic
  | some e =>
    let d := decRef e
    let es1 := s.entry.set entry d.1
    if d.2 then
      let name := getName d.1
      let h := hash name
      if s.meta.slotsNum = 0 then .panic
      else
        let slot := h % s.meta.slotsNum
        match s.slots[slot]? with
        | none => .panic
        | some head =>
          match freeWalk es1 entry (es1.length + 1) head none with
          | .panic => .panic
          | .diverge => .diverge
          | .stopped index prev =>
            let es2 := match prev with
              | some p => setNext es1 p d.1.next
              | none => es1
            let slots2 := match prev with
              | some _ => s.slots
              | none => s.slots.set slot d.1.next
            .ok { entry := es2.set entry { zeroEntry with next := s.meta.freeIndex },
                  meta := { s.meta with freeIndex := index },
                  slots := slots2 }
    else .ok { s with entry := es1 }

/-! ## newHashSet -/

/-- Outcome of `newHashSet`: the set, or the error together with the segment as
the call left it, or a panic together with the segment at that moment. -/
inductive NewResult where
  | ok (set : hashSet)
  | error (msg : String) (seg : hashSet)
  | panic (seg : hashSet)
  deriving DecidableEq

/-- The loop at lines 131-133. -/
def initSlots : Nat → Nat → List Nat → Option (List Nat)
  | 0, _, slots => some slots
  | n + 1, i, slots =>
    if i < slots.length then initSlots n (i + 1) (slots.set i sentinel) else none

/-- The loop at lines 137-139. -/
def initEntries : Nat → Nat → List hashEntry → Option (List hashEntry)
  | 0, _, es => some es
  | n + 1, i, es =>
    if i < es.length then initEntries n (i + 1) (setNext es i ((i + 1) % 2 ^ 32))
    else none

/-- The function `newHashSet`. `seg` is the content of the segment read through
the views of this call: `seg.entry` are the `cap` records at its start,
`seg.meta` the header after them and `seg.slots` the `slotsNum` bucket words
after the header. -/
def newHashSet (seg : hashSet) (bytesNum cap slotsNum : Nat) (init : Bool) :
    NewResult :=
  let offset := cap * hashEntrySize
  if offset > bytesNum then
    .error "segment is not enough to map hashSet.entry" seg
  else
    let seg1 : hashSet :=
      { seg with meta := { seg.meta with slotsNum := slotsNum % 2 ^ 32,
                                         bytesNum := bytesNum % 2 ^ 32,
                                         cap := cap % 2 ^ 32 } }
    let offset := offset + hashMetaSize
    if offset > bytesNum then
      .error "segment is not enough to map hashSet.meta" seg1
    else
      let offset := offset + 4 * slotsNum
      if offset > bytesNum then
        .error "segment is not enough to map hashSet.slots" seg1
      else if init then
        let seg2 : hashSet := { seg1 with meta := { seg1.meta with size := 0, freeIndex := 0 } }
        match initSlots slotsNum 0 seg2.slots with
        | none => .panic seg2
        | some slots =>
          let seg3 : hashSet := { seg2 with slots := slots }
          match initEntries (cap - 1) 0 seg3.entry with
          | none => .panic seg3
          | some es =>
            let seg4 : hashSet := { seg3 with entry := es }
            if cap = 0 then .panic seg4
            else if cap - 1 < es.length then
              .ok { seg4 with entry := setNext es (cap - 1) sentinel }
            else .panic seg4
      else .ok seg1

/-- A segment of zero bytes seen as `cap` records, a header and `slotsNum`
bucket words. -/
def blank (cap slotsNum : Nat) : hashSet :=
  { entry := List.replicate cap zeroEntry,
    meta := { cap := 0, size := 0, freeIndex := 0, slotsNum := 0, bytesNum := 0 },
    slots := List.replicate slotsNum 0 }

/-! ## Chains, the free list and well-formed states -/

/-- Indices met when following `next` from `i` up to the sentinel; `none` when
an index is out of range or the sentinel is not reached within `fuel` records. -/
def chainFrom (es : List hashEntry) : Nat → Nat → Option (List Nat)
  | 0, i => if i = sentinel then some [] else none
  | fuel + 1, i =>
    if i = sentinel then some []
    else
      match es[i]? with
      | none => none
      | some e => (chainFrom es fuel e.next).map (fun l => i :: l)

/-- Chain of the bucket `slot`, from its head in `slots`. -/
def bucketChain (s : hashSet) (slot : Nat) : Option (List Nat) :=
  match s.slots[slot]? with
  | none => none
  | some head => chainFrom s.entry (s.entry.length + 1) head

/-- The free list, from `meta.freeIndex`. -/
def freeList (s : hashSet) : Option (List Nat) :=
  chainFrom s.entry (s.entry.length + 1) s.meta.freeIndex

/-- The list `l` is the sequence of indices from `i` to the sentinel. -/
def IsChain (es : List hashEntry) : Nat → List Nat → Prop
  | i, [] => i = sentinel
  | i, j :: rest =>
    i ≠ sentinel ∧ i = j ∧ ∃ e, es[i]? = some e ∧ IsChain es e.next rest

/-- All bucket chains one after the other, followed by the free list. -/
def allChains (s : hashSet) : List Nat :=
  ((List.range s.slots.length).map (fun slot => (bucketChain s slot).getD [])).flatten
    ++ (freeList s).getD []

/-- Well-formed state: the views have the sizes the header records, there is a
bucket, `cap` fits a `uint32`, every bucket chain and the free list end at the
sentinel inside the entry array, no record is on two of them or twice on one,
and the free list holds at least the `cap - size` records that `Alloc` may still
take. -/
def WellFormed (s : hashSet) : Prop :=
  s.entry.length = s.meta.cap ∧ s.slots.length = s.meta.slotsNum ∧
  0 < s.meta.slotsNum ∧ s.meta.cap < 2 ^ 32 ∧
  (∀ slot < s.slots.length, (bucketChain s slot).isSome = true) ∧
  (freeList s).isSome = true ∧
  (allChains s).Nodup ∧
  s.meta.cap ≤ s.meta.size + ((freeList s).getD []).length

instance (s : hashSet) : Decidable (WellFormed s) := by
  unfold WellFormed; infer_instance

/-- Some record on the chain of the bucket of `name` stores the converted
name. -/
def StoredInBucket (maxNameLength : Nat) (s : hashSet) (name : List Byte) : Prop :=
  ∃ i ∈ (bucketChain s (hash name % s.meta.slotsNum)).getD [],
    (s.entry[i]?).map (fun e => e.name) = convertName maxNameLength (hash name) name

instance (maxNameLength : Nat) (s : hashSet) (name : List Byte) :
    Decidable (StoredInBucket maxNameLength s name) := by
  unfold StoredInBucket; infer_instance

/-- The last `k` bytes of a name. -/
def lastBytes (k : Nat) (name : List Byte) : List Byte :=
  name.drop (name.length - k)

/-- The stored name as the spec words it: the name itself when it fits, else the
decimal string of the hash followed by as many trailing bytes as fill the
budget. -/
def specName (maxNameLength : Nat) (name : List Byte) : List Byte :=
  if name.length ≤ maxNameLength then name
  else itoa (hash name) ++ lastBytes (maxNameLength - (itoa (hash name)).length) name

/-- A 108-byte name; its hash is odd and the hash of its converted form is
even. -/
def longName : List Byte := List.replicate 108 97

/-- The form of `longName` that `Alloc` stores when `maxNameLength = 107`. -/
def longNameStored : List Byte := itoa 1594925249 ++ List.replicate 97 97

/-- The error message of an outcome of `newHashSet`, if it is an error. -/
def NewResult.errorMsg : NewResult → Option String
  | .error msg _ => some msg
  | _ => none

/-! ## Concrete states used in the evaluations -/

/-- A fresh set of capacity 2 with 2 buckets, as `newHashSet` initialises it. -/
def fresh22 : hashSet :=
  { entry := [{ name := [], value := 0, ref := 0, next := 1 },
              { name := [], value := 0, ref := 0, next := sentinel }],
    meta := { cap := 2, size := 0, freeIndex := 0, slotsNum := 2, bytesNum := 284 },
    slots := [sentinel, sentinel] }

/-- The set `fresh22` after `Alloc` of `longName`: record 0 is on bucket 1. -/
def heldLong : hashSet :=
  { entry := [{ name := longNameStored, value := 0, ref := 1, next := sentinel },
              { name := [], value := 0, ref := 0, next := sentinel }],
    meta := { cap := 2, size := 1, freeIndex := 1, slotsNum := 2, bytesNum := 284 },
    slots := [sentinel, 0] }

/-- The set `heldLong` after `Free` of record 0. -/
def freedLong : hashSet :=
  { entry := [{ name := [], value := 0, ref := 0, next := 1 },
              { name := [], value := 0, ref := 0, next := sentinel }],
    meta := { cap := 2, size := 1, freeIndex := sentinel, slotsNum := 2, bytesNum := 284 },
    slots := [sentinel, 0] }

/-- The set `heldLong` after `Alloc` of the name `longNameStored`. -/
def heldTwice : hashSet :=
  { entry := [{ name := longNameStored, value := 0, ref := 1, next := sentinel },
              { name := longNameStored, value := 0, ref := 1, next := sentinel }],
    meta := { cap := 2, size := 2, freeIndex := sentinel, slotsNum := 2, bytesNum := 284 },
    slots := [1, 0] }

/-- A fresh set of capacity 2 with 1 bucket. -/
def fresh21 : hashSet :=
  { entry := [{ name := [], value := 0, ref := 0, next := 1 },
              { name := [], value := 0, ref := 0, next := sentinel }],
    meta := { cap := 2, size := 0, freeIndex := 0, slotsNum := 1, bytesNum := 280 },
    slots := [sentinel] }

/-- The set `fresh21` holding "a" in record 0 and "b" in record 1. -/
def fullAB : hashSet :=
  { entry := [{ name := [97], value := 0, ref := 1, next := 1 },
              { name := [98], value := 0, ref := 1, next := sentinel }],
    meta := { cap := 2, size := 2, freeIndex := sentinel, slotsNum := 1, bytesNum := 280 },
    slots := [0] }

/-- The set `fullAB` after `Free` of record 0: the record is on the free list,
`size` is still 2. -/
def freedA : hashSet :=
  { entry := [{ name := [], value := 0, ref := 0, next := sentinel },
              { name := [98], value := 0, ref := 1, next := sentinel }],
    meta := { cap := 2, size := 2, freeIndex := 0, slotsNum := 1, bytesNum := 280 },
    slots := [1] }

/-- Byte offset of the header inside the segment: the value of `offset` when
`set.meta` is mapped and written (lines 96 and 102). -/
def metaOffset (cap : Nat) : Nat := cap * hashEntrySize

/-- Whether the record at index `k` stores exactly the given name. -/
def holdsName (es : List hashEntry) (nameBytes : List Byte) (k : Nat) : Bool :=
  decide ((es[k]?).map (fun e => e.name) = some nameBytes)

/-- The set `fresh21` holding "a" in record 0; record 1 is free. -/
def heldA : hashSet :=
  { entry := [{ name := [97], value := 0, ref := 1, next := sentinel },
              { name := [], value := 0, ref := 0, next := sentinel }],
    meta := { cap := 2, size := 1, freeIndex := 1, slotsNum := 1, bytesNum := 280 },
    slots := [0] }

/-! ## Lemmas on the hash and on name conversion -/

theorem hash_foldl_lt (key : List Byte) (init : Nat) (h : init < 2 ^ 32) :
    key.foldl (fun h b => ((h ^^^ b.val) * prime32) % 2 ^ 32) init < 2 ^ 32 := by
  induction key generalizing init with
  | nil => simpa using h
  | cons b rest ih =>
    simp only [List.foldl_cons]
    exact ih _ (Nat.mod_lt _ (by norm_num))

theorem hash_lt (key : List Byte) : hash key < 2 ^ 32 :=
  hash_foldl_lt key offset32 (by norm_num [offset32])

theorem itoaLoop_length_le (fuel : Nat) :
    ∀ (n k : Nat) (acc : List Byte), 1 ≤ k → n < 10 ^ k →
      (itoaLoop fuel n acc).length ≤ acc.length + k := by
  induction fuel with
  | zero => intro n k acc _ _; simp [itoaLoop]
  | succ fuel ih =>
    intro n k acc hk hn
    unfold itoaLoop
    split
    · simp; omega
    · rename_i h10
      have hk2 : 2 ≤ k := by
        rcases Nat.lt_or_ge k 2 with h | h
        · have : k = 1 := by omega
          subst this
          simp at hn
          omega
        · exact h
      have hdiv : n / 10 < 10 ^ (k - 1) := by
        rw [Nat.div_lt_iff_lt_mul (by norm_num)]
        have : 10 ^ k = 10 ^ (k - 1) * 10 := by
          rw [← Nat.pow_succ]
          congr 1
          omega
        omega
      have := ih (n / 10) (k - 1) ((⟨48 + n % 10, by omega⟩ : Byte) :: acc) (by omega) hdiv
      simp at this
      omega

theorem itoa_hash_length_le (key : List Byte) : (itoa (hash key)).length ≤ 10 := by
  have h := itoaLoop_length_le (hash key + 1) (hash key) 10 [] (by norm_num)
    (lt_trans (hash_lt key) (by norm_num))
  simpa [itoa] using h

theorem convertName_eq_specName (maxNameLength : Nat) (name : List Byte)
    (hm : 10 ≤ maxNameLength) :
    convertName maxNameLength (hash name) name = some (specName maxNameLength name) := by
  have hd := itoa_hash_length_le name
  unfold convertName specName sliceFrom lastBytes
  by_cases hlen : maxNameLength < name.length
  · have hb : (itoa (hash name)).length + name.length - maxNameLength ≤ name.length := by omega
    have hk : name.length - (maxNameLength - (itoa (hash name)).length)
        = (itoa (hash name)).length + name.length - maxNameLength := by omega
    simp [hlen, hb, hk, Nat.not_le.mpr hlen]
  · simp [hlen, Nat.le_of_not_lt hlen]

/-! ## Lemmas on chains -/

theorem chainFrom_congr (es es' : List hashEntry)
    (h : ∀ i : Nat, (es'[i]?).map (fun e => e.next) = (es[i]?).map (fun e => e.next))
    (fuel : Nat) : ∀ i, chainFrom es' fuel i = chainFrom es fuel i := by
  induction fuel with
  | zero => intro i; simp [chainFrom]
  | succ fuel ih =>
    intro i
    unfold chainFrom
    by_cases hi : i = sentinel
    · simp [hi]
    · simp only [hi, if_false]
      have hi2 := h i
      cases h1 : es'[i]? with
      | none =>
        cases h2 : es[i]? with
        | none => rfl
        | some e => rw [h1, h2] at hi2; simp at hi2
      | some e' =>
        cases h2 : es[i]? with
        | none => rw [h1, h2] at hi2; simp at hi2
        | some e =>
          rw [h1, h2] at hi2
          simp at hi2
          simp [hi2, ih]

theorem next_set_ref (es : List hashEntry) (k : Nat) (e : hashEntry) (r : Nat)
    (he : es[k]? = some e) (i : Nat) :
    ((es.set k { e with ref := r })[i]?).map (fun x => x.next)
      = (es[i]?).map (fun x => x.next) := by
  by_cases hik : k = i
  · subst hik
    have hlt : k < es.length := by
      rcases Nat.lt_or_ge k es.length with h | h
      · exact h
      · rw [List.getElem?_eq_none h] at he; cases he
    simp [List.getElem?_set, hlt, he]
  · simp [List.getElem?_set, hik]

/-! ## Theorems -/

/-- C8: `Free` on a record whose reference count `r` is above 1 sets the count to
`r - 1` and changes nothing else: the name, payload and `next` of the record,
every other record, every bucket slot, `size` and `freeIndex` stay as they
were, and so does every bucket chain and the free list, so the record is still
reachable from its bucket. -/
theorem Free_shared (s : hashSet) (entry : Nat) (e : hashEntry)
    (he : s.entry[entry]? = some e) (h1 : 1 < e.ref) (h2 : e.ref < 2 ^ 32) :
    Free s entry = .ok { s with entry := s.entry.set entry { e with ref := e.ref - 1 } } ∧
    (∀ slot, bucketChain { s with entry := s.entry.set entry { e with ref := e.ref - 1 } } slot
        = bucketChain s slot) ∧
    freeList { s with entry := s.entry.set entry { e with ref := e.ref - 1 } } = freeList s := by
  have hr : (e.ref + (2 ^ 32 - 1)) % 2 ^ 32 = e.ref - 1 := by omega
  have hz : e.ref - 1 ≠ 0 := by omega
  refine ⟨?_, ?_, ?_⟩
  · unfold Free
    rw [he]
    simp only [decRef, hr]
    simp [hz]
  · intro slot
    unfold bucketChain
    simp only [List.length_set]
    cases s.slots[slot]? with
    | none => rfl
    | some head =>
      exact chainFrom_congr _ _ (next_set_ref s.entry entry e _ he) _ head
  · unfold freeList
    simp only [List.length_set]
    exact chainFrom_congr _ _ (next_set_ref s.entry entry e _ he) _ _

/-- Instance of `Free_shared`: a record allocated in a fresh set and referenced
twice. -/
theorem Free_shared_witness :
    let s : hashSet :=
      { entry := [{ name := [97], value := 7, ref := 2, next := sentinel }],
        meta := { cap := 1, size := 1, freeIndex := sentinel, slotsNum := 1, bytesNum := 152 },
        slots := [0] }
    Free s 0 = .ok { s with entry := [{ name := [97], value := 7, ref := 1, next := sentinel }] } ∧
    bucketChain s 0 = some [0] :=
  ⟨(Free_shared
      { entry := [{ name := [97], value := 7, ref := 2, next := sentinel }],
        meta := { cap := 1, size := 1, freeIndex := sentinel, slotsNum := 1, bytesNum := 152 },
        slots := [0] }
      0 { name := [97], value := 7, ref := 2, next := sentinel } rfl
      (by decide) (by decide)).1, by decide⟩

/-- C10: `newHashSet` returns an error exactly when the three regions together
exceed `bytesNum`, and the message names the first region that does not fit. -/
theorem newHashSet_error (seg : hashSet) (bytesNum cap slotsNum : Nat) (init : Bool) :
    ((∃ msg seg', newHashSet seg bytesNum cap slotsNum init = .error msg seg') ↔
      cap * hashEntrySize + hashMetaSize + 4 * slotsNum > bytesNum) ∧
    (newHashSet seg bytesNum cap slotsNum init).errorMsg =
      if cap * hashEntrySize > bytesNum then
        some "segment is not enough to map hashSet.entry"
      else if cap * hashEntrySize + hashMetaSize > bytesNum then
        some "segment is not enough to map hashSet.meta"
      else if cap * hashEntrySize + hashMetaSize + 4 * slotsNum > bytesNum then
        some "segment is not enough to map hashSet.slots"
      else none := by
  by_cases h1 : cap * hashEntrySize > bytesNum
  · have h4 : cap * hashEntrySize + hashMetaSize + 4 * slotsNum > bytesNum := by omega
    simp [newHashSet, h1, h4, NewResult.errorMsg]
  · by_cases h2 : cap * hashEntrySize + hashMetaSize > bytesNum
    · have h4 : cap * hashEntrySize + hashMetaSize + 4 * slotsNum > bytesNum := by omega
      simp [newHashSet, h1, h2, h4, NewResult.errorMsg]
    · by_cases h3 : cap * hashEntrySize + hashMetaSize + 4 * slotsNum > bytesNum
      · simp [newHashSet, h1, h2, h3, NewResult.errorMsg]
      · simp only [newHashSet, h1, h2, h3, if_false]
        cases init with
        | false => simp [NewResult.errorMsg]
        | true =>
          simp only [if_true]
          split
          · simp [NewResult.errorMsg]
          · split
            · simp [NewResult.errorMsg]
            · split
              · simp [NewResult.errorMsg]
              · split <;> simp [NewResult.errorMsg]

theorem chainFrom_isChain (es : List hashEntry) (fuel : Nat) :
    ∀ (i : Nat) (l : List Nat), chainFrom es fuel i = some l → IsChain es i l := by
  induction fuel with
  | zero =>
    intro i l h
    unfold chainFrom at h
    split at h
    · cases h; simpa [IsChain]
    · cases h
  | succ fuel ih =>
    intro i l h
    unfold chainFrom at h
    split at h
    · cases h; simpa [IsChain]
    · rename_i hi
      cases he : es[i]? with
      | none => simp [he] at h
      | some e =>
        simp only [he] at h
        cases hc : chainFrom es fuel e.next with
        | none => simp [hc] at h
        | some rest =>
          simp only [hc, Option.map_some', Option.some.injEq] at h
          subst h
          exact ⟨hi, rfl, e, he, ih _ _ hc⟩

theorem IsChain.getElem_of_mem {es : List hashEntry} :
    ∀ {l : List Nat} {i : Nat}, IsChain es i l → ∀ j ∈ l, ∃ e, es[j]? = some e := by
  intro l
  induction l with
  | nil => intro i _ j hj; cases hj
  | cons a rest ih =>
    intro i h j hj
    obtain ⟨_, hia, e, he, hrest⟩ := h
    rcases List.mem_cons.mp hj with hja | hjr
    · subst hja; subst hia; exact ⟨e, he⟩
    · exact ih hrest j hjr

theorem IsChain.lt_length {es : List hashEntry} {l : List Nat} {i : Nat}
    (h : IsChain es i l) (j : Nat) (hj : j ∈ l) : j < es.length := by
  obtain ⟨e, he⟩ := h.getElem_of_mem j hj
  rcases Nat.lt_or_ge j es.length with hlt | hge
  · exact hlt
  · rw [List.getElem?_eq_none hge] at he; cases he

theorem nodup_length_le (l : List Nat) (n : Nat) (hnd : l.Nodup) (hlt : ∀ j ∈ l, j < n) :
    l.length ≤ n := by
  have hsub : l ⊆ List.range n := fun j hj => List.mem_range.mpr (hlt j hj)
  simpa using (List.subperm_of_subset hnd hsub).length_le

/-- The search loop of `Alloc` on a chain without a record of that name runs to
the sentinel and leaves the last record of the chain in `entry`. -/
theorem allocWalk_ended (es : List hashEntry) (nameBytes : List Byte) :
    ∀ (l : List Nat) (fuel i : Nat) (prev : Option Nat), IsChain es i l →
      (∀ j ∈ l, ∀ e, es[j]? = some e → e.name ≠ nameBytes) → l.length ≤ fuel →
      allocWalk es nameBytes fuel i prev = .ended ((l.getLast?).or prev) := by
  intro l
  induction l with
  | nil =>
    intro fuel i prev h _ _
    have hi : i = sentinel := h
    cases fuel <;> simp [allocWalk, hi]
  | cons a rest ih =>
    intro fuel i prev h hn hf
    obtain ⟨hi, hia, e, he, hrest⟩ := h
    subst hia
    cases fuel with
    | zero => simp at hf
    | succ fuel =>
      have hne : e.name ≠ nameBytes := hn i (List.mem_cons_self _ _) e he
      have hrec := ih fuel e.next (some i) hrest
        (fun j hj => hn j (List.mem_cons_of_mem _ hj)) (by simpa using hf)
      unfold allocWalk
      simp only [hi, if_false, he, equalName, hne, decide_False]
      simp only [Bool.false_eq_true, if_false]
      rw [hrec]
      cases rest with
      | nil => simp
      | cons b rest2 =>
        rw [List.getLast?_cons_cons]
        cases hq : (b :: rest2).getLast? with
        | none => simp at hq
        | some x => rfl

theorem Alloc_of_found (maxNameLength : Nat) (s : hashSet) (name nameBytes : List Byte)
    (head index : Nat) (hs : 0 < s.meta.slotsNum)
    (hc : convertName maxNameLength (hash name) name = some nameBytes)
    (hh : s.slots[hash name % s.meta.slotsNum]? = some head)
    (hw : allocWalk s.entry nameBytes (s.entry.length + 1) head none = .found index) :
    Alloc maxNameLength s name = .ok (s, some index, false) := by
  unfold Alloc
  simp only [Nat.ne_of_gt hs, if_false, hc, hh, hw]

theorem Alloc_of_full (maxNameLength : Nat) (s : hashSet) (name nameBytes : List Byte)
    (head : Nat) (entry : Option Nat) (hs : 0 < s.meta.slotsNum)
    (hc : convertName maxNameLength (hash name) name = some nameBytes)
    (hh : s.slots[hash name % s.meta.slotsNum]? = some head)
    (hw : allocWalk s.entry nameBytes (s.entry.length + 1) head none = .ended entry)
    (hfull : s.meta.size ≥ s.meta.cap) :
    Alloc maxNameLength s name = .ok (s, none, false) := by
  unfold Alloc
  simp only [Nat.ne_of_gt hs, if_false, hc, hh, hw, hfull, if_true]

/-- The bucket of `name` has a chain, and no record on it stores the converted
name. -/
theorem not_stored_chain (maxNameLength : Nat) (s : hashSet) (name nameBytes : List Byte)
    (l : List Nat)
    (hc : convertName maxNameLength (hash name) name = some nameBytes)
    (hl : bucketChain s (hash name % s.meta.slotsNum) = some l)
    (hn : ¬ StoredInBucket maxNameLength s name) :
    ∀ j ∈ l, ∀ e, s.entry[j]? = some e → e.name ≠ nameBytes := by
  intro j hj e he hname
  apply hn
  refine ⟨j, by simpa [hl] using hj, ?_⟩
  rw [he, hc]
  simp [hname]

theorem bucketChain_head (s : hashSet) (slot : Nat) (l : List Nat)
    (hl : bucketChain s slot = some l) :
    ∃ head, s.slots[slot]? = some head ∧
      chainFrom s.entry (s.entry.length + 1) head = some l := by
  unfold bucketChain at hl
  cases hh : s.slots[slot]? with
  | none => rw [hh] at hl; cases hl
  | some head => rw [hh] at hl; exact ⟨head, rfl, hl⟩

theorem chainFrom_length_le (es : List hashEntry) (fuel : Nat) :
    ∀ (i : Nat) (l : List Nat), chainFrom es fuel i = some l → l.length ≤ fuel := by
  induction fuel with
  | zero =>
    intro i l h
    unfold chainFrom at h
    split at h
    · cases h; simp
    · cases h
  | succ fuel ih =>
    intro i l h
    unfold chainFrom at h
    split at h
    · cases h; simp
    · cases he : es[i]? with
      | none => simp [he] at h
      | some e =>
        simp only [he] at h
        cases hc : chainFrom es fuel e.next with
        | none => simp [hc] at h
        | some rest =>
          simp only [hc, Option.map_some', Option.some.injEq] at h
          subst h
          simpa using ih _ _ hc

/-- C7: when `size >= cap` and the name is not stored in its bucket, `Alloc`
returns no entry with `created = false` and the set is exactly as before: `size`,
`freeIndex`, every bucket slot and every record. -/
theorem Alloc_full (maxNameLength : Nat) (s : hashSet) (name : List Byte)
    (hm : 10 ≤ maxNameLength) (hs : 0 < s.meta.slotsNum)
    (hl : (bucketChain s (hash name % s.meta.slotsNum)).isSome = true)
    (hn : ¬ StoredInBucket maxNameLength s name)
    (hfull : s.meta.size ≥ s.meta.cap) :
    Alloc maxNameLength s name = .ok (s, none, false) := by
  obtain ⟨l, hl⟩ := Option.isSome_iff_exists.mp hl
  obtain ⟨head, hh, hch⟩ := bucketChain_head s _ l hl
  have hc := convertName_eq_specName maxNameLength name hm
  have hw := allocWalk_ended s.entry (specName maxNameLength name) l (s.entry.length + 1)
    head none (chainFrom_isChain _ _ _ _ hch) (not_stored_chain _ s name _ l hc hl hn)
    (chainFrom_length_le _ _ _ _ hch)
  exact Alloc_of_full maxNameLength s name _ head _ hs hc hh hw hfull

/-- Instance of `Alloc_full`: a set of capacity 2 holding "a" and "b" refuses
"c". -/
theorem Alloc_full_witness :
    Alloc 107
      { entry := [{ name := [97], value := 0, ref := 1, next := 1 },
                  { name := [98], value := 0, ref := 1, next := sentinel }],
        meta := { cap := 2, size := 2, freeIndex := sentinel, slotsNum := 1, bytesNum := 280 },
        slots := [0] } [99]
      = .ok ({ entry := [{ name := [97], value := 0, ref := 1, next := 1 },
                         { name := [98], value := 0, ref := 1, next := sentinel }],
               meta := { cap := 2, size := 2, freeIndex := sentinel, slotsNum := 1,
                         bytesNum := 280 },
               slots := [0] }, none, false) :=
  Alloc_full 107 _ [99] (by decide) (by decide) (by decide) (by decide) (by decide)

/-- After the new record `fi` has been linked behind `last`, the search loop of
`Alloc` walks the old chain and finds `fi`. -/
theorem allocWalk_linked (es es' : List hashEntry) (nameBytes : List Byte) (fi last : Nat)
    (hfi : fi ≠ sentinel)
    (hnew : ∃ e', es'[fi]? = some e' ∧ e'.name = nameBytes) :
    ∀ (l : List Nat) (fuel i : Nat) (prev : Option Nat), IsChain es i l → l.Nodup →
      l.getLast? = some last →
      (∀ j ∈ l, ∀ e, es[j]? = some e → e.name ≠ nameBytes) →
      (∀ j ∈ l, ∀ e, es[j]? = some e →
        ∃ e', es'[j]? = some e' ∧ e'.name = e.name ∧
          e'.next = if j = last then fi else e.next) →
      l.length + 1 ≤ fuel →
      allocWalk es' nameBytes fuel i prev = .found fi := by
  intro l
  induction l with
  | nil => intro fuel i prev _ _ hlast; simp at hlast
  | cons a rest ih =>
    intro fuel i prev h hnd hlast hn hupd hf
    obtain ⟨hi, hia, e, he, hrest⟩ := h
    subst hia
    obtain ⟨e', he', hname, hnext⟩ := hupd i (List.mem_cons_self _ _) e he
    have hne : e'.name ≠ nameBytes := by
      rw [hname]; exact hn i (List.mem_cons_self _ _) e he
    cases fuel with
    | zero => simp at hf
    | succ fuel =>
      unfold allocWalk
      simp only [hi, if_false, he', equalName, hne, decide_False]
      simp only [Bool.false_eq_true, if_false]
      cases rest with
      | nil =>
        have hil : i = last := by simpa using hlast
        rw [hnext, if_pos hil]
        obtain ⟨n, hn', hnn⟩ := hnew
        cases fuel with
        | zero => simp at hf
        | succ fuel =>
          unfold allocWalk
          simp [hfi, hn', equalName, hnn]
      | cons b rest2 =>
        have hlast2 : (b :: rest2).getLast? = some last := by
          rw [← hlast, List.getLast?_cons_cons]
        have hmem : last ∈ b :: rest2 := List.mem_of_getLast?_eq_some hlast2
        have hil : i ≠ last := by
          intro hEq
          rw [← hEq] at hmem
          exact (List.nodup_cons.mp hnd).1 hmem
        rw [hnext, if_neg hil]
        exact ih fuel e.next (some i) hrest (List.nodup_cons.mp hnd).2 hlast2
          (fun j hj => hn j (List.mem_cons_of_mem _ hj))
          (fun j hj => hupd j (List.mem_cons_of_mem _ hj))
          (by simpa using hf)

theorem Alloc_of_create (maxNameLength : Nat) (s : hashSet) (name nameBytes : List Byte)
    (head : Nat) (entry : Option Nat) (newEntry cur : hashEntry) (hs : 0 < s.meta.slotsNum)
    (hc : convertName maxNameLength (hash name) name = some nameBytes)
    (hh : s.slots[hash name % s.meta.slotsNum]? = some head)
    (hw : allocWalk s.entry nameBytes (s.entry.length + 1) head none = .ended entry)
    (hlt : s.meta.size < s.meta.cap)
    (hnew : s.entry[s.meta.freeIndex]? = some newEntry)
    (hcur : (match entry with
        | none => s.entry.set s.meta.freeIndex { assignName newEntry nameBytes with ref := 1 }
        | some last =>
          setNext (s.entry.set s.meta.freeIndex { assignName newEntry nameBytes with ref := 1 })
            last s.meta.freeIndex)[s.meta.freeIndex]? = some cur) :
    Alloc maxNameLength s name =
      .ok ({ entry := (match entry with
                | none =>
                  s.entry.set s.meta.freeIndex { assignName newEntry nameBytes with ref := 1 }
                | some last =>
                  setNext
                    (s.entry.set s.meta.freeIndex { assignName newEntry nameBytes with ref := 1 })
                    last s.meta.freeIndex).set s.meta.freeIndex { cur with next := sentinel },
             meta := { s.meta with size := (s.meta.size + 1) % 2 ^ 32, freeIndex := cur.next },
             slots := match entry with
                | none => s.slots.set (hash name % s.meta.slotsNum) s.meta.freeIndex
                | some _ => s.slots },
           some s.meta.freeIndex, true) := by
  unfold Alloc
  simp only [Nat.ne_of_gt hs, if_false, hc, hh, hw, ge_iff_le, Nat.not_le.mpr hlt, hnew, hcur]

/-- In a well-formed state the chain of a bucket has no repetition and the head
of the free list is not on it. -/
theorem WellFormed.chain_facts {s : hashSet} (hwf : WellFormed s) (slot : Nat)
    (hslot : slot < s.slots.length) (l fl : List Nat) (hl : bucketChain s slot = some l)
    (hfl : freeList s = some fl) :
    l.Nodup ∧ ∀ j ∈ fl, j ∉ l := by
  obtain ⟨_, _, _, _, _, _, hnd, _⟩ := hwf
  unfold allChains at hnd
  rw [hfl] at hnd
  simp only [Option.getD_some] at hnd
  obtain ⟨hA, _, hdisj⟩ := List.nodup_append.mp hnd
  have hmem : l ∈ (List.range s.slots.length).map (fun slot => (bucketChain s slot).getD []) :=
    List.mem_map.mpr ⟨slot, List.mem_range.mpr hslot, by simp [hl]⟩
  refine ⟨(List.nodup_flatten.mp hA).1 l hmem, ?_⟩
  intro j hjf hjl
  exact hdisj (List.mem_flatten_of_mem hmem hjl) hjf

/-- C3: in a well-formed state with `size < cap`, for a name of any length that
is not stored in its bucket, `Alloc` creates the record at the head of the free
list, and the same call repeated at once returns that same record with
`created = false` and changes nothing. -/
theorem Alloc_twice (maxNameLength : Nat) (s : hashSet) (name : List Byte)
    (hm : 10 ≤ maxNameLength) (hwf : WellFormed s) (hlt : s.meta.size < s.meta.cap)
    (hn : ¬ StoredInBucket maxNameLength s name) :
    ∃ s', Alloc maxNameLength s name = .ok (s', some s.meta.freeIndex, true) ∧
      Alloc maxNameLength s' name = .ok (s', some s.meta.freeIndex, false) := by
  have hwf' := hwf
  obtain ⟨hcap, hslen, hspos, hc32, hchains, hfree, _, hsz⟩ := hwf'
  have hslot : hash name % s.meta.slotsNum < s.slots.length := by
    rw [hslen]; exact Nat.mod_lt _ hspos
  obtain ⟨l, hl⟩ := Option.isSome_iff_exists.mp (hchains _ hslot)
  obtain ⟨fl, hfl⟩ := Option.isSome_iff_exists.mp hfree
  obtain ⟨head, hh, hch⟩ := bucketChain_head s _ l hl
  obtain ⟨hndl, hdisj⟩ := hwf.chain_facts _ hslot l fl hl hfl
  have hc := convertName_eq_specName maxNameLength name hm
  have hL := chainFrom_isChain _ _ _ _ hch
  have hF : IsChain s.entry s.meta.freeIndex fl := chainFrom_isChain _ _ _ _ hfl
  have hnames := not_stored_chain _ s name _ l hc hl hn
  rw [hfl] at hsz
  simp only [Option.getD_some] at hsz
  cases fl with
  | nil => simp at hsz; omega
  | cons f rest =>
    obtain ⟨hfs, hff, newEntry, hnew, _⟩ := hF
    have hfl' : s.meta.freeIndex ∉ l := by
      rw [hff]; exact hdisj f (List.mem_cons_self _ _)
    have hflt : s.meta.freeIndex < s.entry.length := by
      rcases Nat.lt_or_ge s.meta.freeIndex s.entry.length with h | h
      · exact h
      · rw [List.getElem?_eq_none h] at hnew; cases hnew
    have hlen : l.length ≤ s.entry.length :=
      nodup_length_le l _ hndl (fun j hj => hL.lt_length j hj)
    have hw1 := allocWalk_ended s.entry _ l (s.entry.length + 1) head none hL hnames
      (by omega)
    cases l with
    | nil =>
      simp only [List.getLast?_nil, Option.or_none] at hw1
      have hcur : (match (none : Option Nat) with
          | none => s.entry.set s.meta.freeIndex
              { assignName newEntry (specName maxNameLength name) with ref := 1 }
          | some last =>
            setNext (s.entry.set s.meta.freeIndex
              { assignName newEntry (specName maxNameLength name) with ref := 1 })
              last s.meta.freeIndex)[s.meta.freeIndex]?
          = some { assignName newEntry (specName maxNameLength name) with ref := 1 } := by
        simp [hflt]
      refine ⟨_, Alloc_of_create maxNameLength s name _ head none newEntry _ hspos hc hh hw1
        hlt hnew hcur, ?_⟩
      refine Alloc_of_found maxNameLength _ name (specName maxNameLength name)
        s.meta.freeIndex s.meta.freeIndex ?_ ?_ ?_ ?_
      · exact hspos
      · exact hc
      · show (s.slots.set (hash name % s.meta.slotsNum) s.meta.freeIndex)[
          hash name % s.meta.slotsNum]? = some s.meta.freeIndex
        simp [hslot]
      · simp only [List.length_set]
        unfold allocWalk
        simp [hfs, hflt, equalName, assignName]
    | cons a rest2 =>
      obtain ⟨last, hlast⟩ : ∃ last, (a :: rest2).getLast? = some last := by
        cases hq : (a :: rest2).getLast? with
        | none => simp at hq
        | some x => exact ⟨x, rfl⟩
      rw [hlast] at hw1
      simp only [Option.or_some] at hw1
      have hlmem : last ∈ a :: rest2 := List.mem_of_getLast?_eq_some hlast
      have hlne : last ≠ s.meta.freeIndex := fun h => hfl' (h ▸ hlmem)
      obtain ⟨elast, helast⟩ := hL.getElem_of_mem last hlmem
      have hllt : last < s.entry.length := hL.lt_length last hlmem
      have hset : setNext (s.entry.set s.meta.freeIndex
            { assignName newEntry (specName maxNameLength name) with ref := 1 })
            last s.meta.freeIndex
          = (s.entry.set s.meta.freeIndex
            { assignName newEntry (specName maxNameLength name) with ref := 1 }).set last
            { elast with next := s.meta.freeIndex } := by
        unfold setNext
        rw [List.getElem?_set_ne (Ne.symm hlne), helast]
      have hcur : (match some last with
          | none => s.entry.set s.meta.freeIndex
              { assignName newEntry (specName maxNameLength name) with ref := 1 }
          | some last =>
            setNext (s.entry.set s.meta.freeIndex
              { assignName newEntry (specName maxNameLength name) with ref := 1 })
              last s.meta.freeIndex)[s.meta.freeIndex]?
          = some { assignName newEntry (specName maxNameLength name) with ref := 1 } := by
        simp only [hset]
        rw [List.getElem?_set_ne hlne]
        simp [hflt]
      refine ⟨_, Alloc_of_create maxNameLength s name _ head (some last) newEntry _ hspos hc hh
        hw1 hlt hnew hcur, ?_⟩
      refine Alloc_of_found maxNameLength _ name (specName maxNameLength name)
        head s.meta.freeIndex ?_ ?_ ?_ ?_
      · exact hspos
      · exact hc
      · exact hh
      simp only [hset, List.length_set]
      apply allocWalk_linked s.entry _ _ s.meta.freeIndex last hfs ?_ (a :: rest2)
        (s.entry.length + 1) head none hL hndl hlast hnames ?_ (by simp at hlen ⊢; omega)
      · refine ⟨{ name := specName maxNameLength name, value := newEntry.value, ref := 1,
                  next := sentinel }, ?_, rfl⟩
        rw [List.getElem?_set_self (by simpa using hflt)]
        rfl
      · intro j hj e he
        have hjne : j ≠ s.meta.freeIndex := fun h => hfl' (h ▸ hj)
        rw [List.getElem?_set_ne (Ne.symm hjne)]
        by_cases hjl : j = last
        · subst hjl
          rw [List.getElem?_set_self (by simpa using hllt)]
          rw [helast] at he
          cases he
          exact ⟨_, rfl, rfl, by simp⟩
        · rw [List.getElem?_set_ne (Ne.symm hjl), List.getElem?_set_ne (Ne.symm hjne), he]
          exact ⟨e, rfl, rfl, by simp [hjl]⟩

set_option maxRecDepth 100000 in
/-- Instance of `Alloc_twice` with a 108-byte name on a fresh set of capacity 2
with 2 buckets. -/
theorem Alloc_twice_witness :
    WellFormed fresh22 ∧ ¬ StoredInBucket 107 fresh22 longName ∧
    ∃ s', Alloc 107 fresh22 longName = .ok (s', some 0, true) ∧
      Alloc 107 s' longName = .ok (s', some 0, false) :=
  ⟨by decide, by decide,
    Alloc_twice 107 fresh22 longName (by decide) (by decide) (by decide) (by decide)⟩

/-- C1 (evaluation): capacity 1, one bucket. After `Alloc` of "a" and `Free` of
its record the free list is `[0]` again while `size` is still 1, so `size` plus
the length of the free list is 2 and `cap` is 1: `Free` does not decrement
`size`. -/
theorem Free_keeps_size :
    let s0 : hashSet :=
      { entry := [{ name := [], value := 0, ref := 0, next := sentinel }],
        meta := { cap := 1, size := 0, freeIndex := 0, slotsNum := 1, bytesNum := 152 },
        slots := [sentinel] }
    let s1 : hashSet :=
      { entry := [{ name := [97], value := 0, ref := 1, next := sentinel }],
        meta := { cap := 1, size := 1, freeIndex := sentinel, slotsNum := 1, bytesNum := 152 },
        slots := [0] }
    let s2 : hashSet :=
      { entry := [{ name := [], value := 0, ref := 0, next := sentinel }],
        meta := { cap := 1, size := 1, freeIndex := 0, slotsNum := 1, bytesNum := 152 },
        slots := [sentinel] }
    newHashSet (blank 1 1) 152 1 1 true = .ok s0 ∧
    Alloc 107 s0 [97] = .ok (s1, some 0, true) ∧
    Free s1 0 = .ok s2 ∧
    freeList s2 = some [0] ∧ s2.meta.size = 1 ∧ s2.meta.cap = 1 ∧
    s2.meta.size + ((freeList s2).getD []).length ≠ s2.meta.cap :=
  ⟨by decide, by decide, by decide, by decide, rfl, rfl, by decide⟩

/-- C2 (evaluation): capacity 2, one bucket. "a" and "b" fill the set, "c" is
refused, `Free` of the record of "a" (reference count 1) puts index 0 on the
free list, and the next `Alloc` of "c" is refused again: `size` is still 2. -/
theorem Alloc_after_Free_refused :
    newHashSet (blank 2 1) 280 2 1 true = .ok fresh21 ∧
    (∃ s1, Alloc 107 fresh21 [97] = .ok (s1, some 0, true) ∧
      Alloc 107 s1 [98] = .ok (fullAB, some 1, true)) ∧
    Alloc 107 fullAB [99] = .ok (fullAB, none, false) ∧
    Free fullAB 0 = .ok freedA ∧
    freeList freedA = some [0] ∧ freedA.meta.size = 2 ∧
    Alloc 107 freedA [99] = .ok (freedA, none, false) :=
  ⟨by decide, ⟨_, rfl, by decide⟩, by decide, by decide, by decide, rfl, by decide⟩

set_option maxRecDepth 100000 in
/-- C4 (evaluation): with `maxNameLength = 107`, capacity 2 and 2 buckets, `Alloc`
of a 108-byte name links record 0 into bucket 1 (the hash of the name is odd)
and stores the converted name, whose hash is even. `Free` of that record, whose
reference count is 1, searches bucket 0: record 0 stays on the chain of bucket
1 and `freeIndex` becomes the sentinel instead of 0. -/
theorem Free_long_name_stays_linked :
    newHashSet (blank 2 2) 284 2 2 true = .ok fresh22 ∧
    Alloc 107 fresh22 longName = .ok (heldLong, some 0, true) ∧
    hash longName % 2 = 1 ∧ hash longNameStored % 2 = 0 ∧
    bucketChain heldLong 1 = some [0] ∧
    Free heldLong 0 = .ok freedLong ∧
    bucketChain freedLong 1 = some [0, 1] ∧
    freedLong.meta.freeIndex = sentinel ∧ freeList freedLong = some [] :=
  ⟨by decide, by decide, by decide, by decide, by decide, by decide, by decide, rfl,
    by decide⟩

set_option maxRecDepth 100000 in
/-- C5 (evaluation): with `maxNameLength = 107`, after `Alloc` of a 108-byte name
and `Alloc` of the 107-byte name equal to its converted form, records 0 and 1
are both on bucket chains with reference count 1 and store equal names. -/
theorem equal_names_in_two_buckets :
    newHashSet (blank 2 2) 284 2 2 true = .ok fresh22 ∧
    Alloc 107 fresh22 longName = .ok (heldLong, some 0, true) ∧
    Alloc 107 heldLong longNameStored = .ok (heldTwice, some 1, true) ∧
    bucketChain heldTwice 0 = some [1] ∧ bucketChain heldTwice 1 = some [0] ∧
    (heldTwice.entry[0]?).map (fun e => (e.name, e.ref)) = some (longNameStored, 1) ∧
    (heldTwice.entry[1]?).map (fun e => (e.name, e.ref)) = some (longNameStored, 1) :=
  ⟨by decide, by decide, by decide, by decide, by decide, by decide, by decide⟩

set_option maxRecDepth 100000 in
/-- C6 (evaluation): with `maxNameLength = 107`, after `Alloc` of a 108-byte name
and `Free` of its record, `freeIndex` is the sentinel while `size < cap`, and
the next creating `Alloc` indexes the entry array of length 2 at `0xffffffff`:
it panics. -/
theorem Alloc_after_Free_long_name_panics :
    newHashSet (blank 2 2) 284 2 2 true = .ok fresh22 ∧
    Alloc 107 fresh22 longName = .ok (heldLong, some 0, true) ∧
    Free heldLong 0 = .ok freedLong ∧
    freedLong.meta.freeIndex = 0xffffffff ∧ freedLong.entry.length = 2 ∧
    freedLong.meta.size < freedLong.meta.cap ∧
    bucketChain freedLong (hash [97] % 2) = some [] ∧
    Alloc 107 freedLong [97] = .panic :=
  ⟨by decide, by decide, by decide, rfl, rfl, by decide, by decide, by decide⟩

/-! ## The hash is FNV-1a -/

/-- C13: `hash` is 32-bit FNV-1a: the hash of the empty string is the offset
basis 2166136261, and appending a byte `b` xors it into the accumulator and
multiplies by the prime 16777619 modulo `2 ^ 32`. -/
theorem hash_fnv1a :
    hash [] = 2166136261 ∧
    ∀ (s : List Byte) (b : Byte),
      hash (s ++ [b]) = ((hash s ^^^ b.val) * 16777619) % 2 ^ 32 := by
  refine ⟨rfl, ?_⟩
  intro s b
  simp [hash, List.foldl_append, prime32]

/-! ## Lemmas on newHashSet -/

theorem setNext_length (es : List hashEntry) (i v : Nat) :
    (setNext es i v).length = es.length := by
  unfold setNext
  cases es[i]? <;> simp

theorem setNext_getElem? (es : List hashEntry) (i v j : Nat) :
    (setNext es i v)[j]? =
      if i = j then (es[j]?).map (fun e => { e with next := v }) else es[j]? := by
  unfold setNext
  by_cases hij : i = j
  · subst hij
    cases he : es[i]? with
    | none => simp [he]
    | some e =>
      have hlt : i < es.length := by
        rcases Nat.lt_or_ge i es.length with h | h
        · exact h
        · rw [List.getElem?_eq_none h] at he; cases he
      simp [List.getElem?_set_self hlt]
  · cases he : es[i]? with
    | none => simp [hij]
    | some e => simp [hij, List.getElem?_set_ne hij]

theorem initSlots_spec (n : Nat) :
    ∀ (i : Nat) (slots : List Nat), i + n ≤ slots.length →
      ∃ r, initSlots n i slots = some r ∧ r.length = slots.length ∧
        ∀ j : Nat, r[j]? = if i ≤ j ∧ j < i + n then some sentinel else slots[j]? := by
  induction n with
  | zero =>
    intro i slots _
    refine ⟨slots, rfl, rfl, ?_⟩
    intro j
    have : ¬ (i ≤ j ∧ j < i + 0) := by omega
    rw [if_neg this]
  | succ n ih =>
    intro i slots h
    have hi : i < slots.length := by omega
    obtain ⟨r, hr, hlen, hget⟩ := ih (i + 1) (slots.set i sentinel) (by simp; omega)
    refine ⟨r, ?_, by simpa using hlen, ?_⟩
    · unfold initSlots
      rw [if_pos hi]
      exact hr
    · intro j
      rw [hget j]
      by_cases hij : i = j
      · subst hij
        have h1 : ¬ (i + 1 ≤ i ∧ i < i + 1 + n) := by omega
        have h2 : i ≤ i ∧ i < i + (n + 1) := by omega
        simp [h1, h2, List.getElem?_set_self hi]
      · rw [List.getElem?_set_ne hij]
        by_cases hc : i + 1 ≤ j ∧ j < i + 1 + n
        · have h2 : i ≤ j ∧ j < i + (n + 1) := by omega
          simp [hc, h2]
        · have h2 : ¬ (i ≤ j ∧ j < i + (n + 1)) := by omega
          simp [hc, h2]

theorem initEntries_spec (n : Nat) :
    ∀ (i : Nat) (es : List hashEntry), i + n ≤ es.length →
      ∃ r, initEntries n i es = some r ∧ r.length = es.length ∧
        ∀ j : Nat, r[j]? =
          if i ≤ j ∧ j < i + n then
            (es[j]?).map (fun e => { e with next := (j + 1) % 2 ^ 32 })
          else es[j]? := by
  induction n with
  | zero =>
    intro i es _
    refine ⟨es, rfl, rfl, ?_⟩
    intro j
    have : ¬ (i ≤ j ∧ j < i + 0) := by omega
    rw [if_neg this]
  | succ n ih =>
    intro i es h
    have hi : i < es.length := by omega
    obtain ⟨r, hr, hlen, hget⟩ :=
      ih (i + 1) (setNext es i ((i + 1) % 2 ^ 32)) (by rw [setNext_length]; omega)
    refine ⟨r, ?_, by rw [hlen, setNext_length], ?_⟩
    · unfold initEntries
      rw [if_pos hi]
      exact hr
    · intro j
      rw [hget j, setNext_getElem?]
      by_cases hij : i = j
      · subst hij
        have h1 : ¬ (i + 1 ≤ i ∧ i < i + 1 + n) := by omega
        have h2 : i ≤ i ∧ i < i + (n + 1) := by omega
        simp [h1, h2]
      · by_cases hc : i + 1 ≤ j ∧ j < i + 1 + n
        · have h2 : i ≤ j ∧ j < i + (n + 1) := by omega
          simp [hc, h2, hij]
        · have h2 : ¬ (i ≤ j ∧ j < i + (n + 1)) := by omega
          simp [hc, h2, hij]

/-! ## From chains to the chain function -/

theorem chainFrom_of_isChain (es : List hashEntry) :
    ∀ (l : List Nat) (fuel i : Nat), IsChain es i l → l.length ≤ fuel →
      chainFrom es fuel i = some l := by
  intro l
  induction l with
  | nil =>
    intro fuel i h _
    have hi : i = sentinel := h
    cases fuel <;> simp [chainFrom, hi]
  | cons a rest ih =>
    intro fuel i h hf
    obtain ⟨hi, hia, e, he, hrest⟩ := h
    subst hia
    cases fuel with
    | zero => simp at hf
    | succ fuel =>
      unfold chainFrom
      simp only [hi, if_false, he]
      rw [ih fuel e.next hrest (by simpa using hf)]
      rfl

theorem IsChain_congr (es es' : List hashEntry) :
    ∀ (l : List Nat) (i : Nat),
      (∀ j ∈ l, (es'[j]?).map (fun e => e.next) = (es[j]?).map (fun e => e.next)) →
      IsChain es i l → IsChain es' i l := by
  intro l
  induction l with
  | nil => intro i _ h; exact h
  | cons a rest ih =>
    intro i hcong h
    obtain ⟨hi, hia, e, he, hrest⟩ := h
    subst hia
    have h1 := hcong i (List.mem_cons_self _ _)
    rw [he] at h1
    cases he' : es'[i]? with
    | none => rw [he'] at h1; simp at h1
    | some e' =>
      rw [he'] at h1
      simp at h1
      refine ⟨hi, rfl, e', he', ?_⟩
      rw [h1]
      exact ih e.next (fun j hj => hcong j (List.mem_cons_of_mem _ hj)) hrest

/-- The free list threaded by `newHashSet`: record `j` points to `j + 1` and the
last record to the sentinel. -/
theorem isChain_threaded (es : List hashEntry) (cap : Nat) (hc : cap < 2 ^ 32)
    (hnext : ∀ j : Nat, j + 1 < cap → (es[j]?).map (fun e => e.next) = some (j + 1))
    (hlast : (es[cap - 1]?).map (fun e => e.next) = some sentinel) :
    ∀ (k i : Nat), i + k + 1 = cap → IsChain es i (List.range' i (k + 1)) := by
  intro k
  induction k with
  | zero =>
    intro i hi
    have hic : i = cap - 1 := by omega
    have hs : i ≠ sentinel := by unfold sentinel; omega
    rw [← hic] at hlast
    cases he : es[i]? with
    | none => rw [he] at hlast; simp at hlast
    | some e =>
      rw [he] at hlast
      simp at hlast
      exact ⟨hs, rfl, e, he, hlast⟩
  | succ k ih =>
    intro i hi
    have hs : i ≠ sentinel := by unfold sentinel; omega
    have hn := hnext i (by omega)
    cases he : es[i]? with
    | none => rw [he] at hn; simp at hn
    | some e =>
      rw [he] at hn
      simp at hn
      refine ⟨hs, rfl, e, he, ?_⟩
      rw [hn]
      exact ih (i + 1) (by omega)

/-! ## newHashSet: creation, attachment and its failures -/

/-- C11: for `1 ≤ cap` and any `slotsNum`, on a segment that holds the three
regions, `newHashSet` with `init = true` returns a set with `size = 0`,
`freeIndex = 0`, every bucket slot equal to the sentinel, `entry[i].next = i + 1`
for `i < cap - 1` and `entry[cap - 1].next = sentinel`; the free list from
`freeIndex` is `0, 1, ..., cap - 1`. The views hold `cap` records and `slotsNum`
words, and `cap` is in the range of the `uint32` index type. -/
theorem newHashSet_init (seg : hashSet) (bytesNum cap slotsNum : Nat)
    (hcap : 1 ≤ cap) (hc32 : cap < 2 ^ 32)
    (hfit : cap * hashEntrySize + hashMetaSize + 4 * slotsNum ≤ bytesNum)
    (hel : seg.entry.length = cap) (hsl : seg.slots.length = slotsNum) :
    ∃ s, newHashSet seg bytesNum cap slotsNum true = .ok s ∧
      s.meta.size = 0 ∧ s.meta.freeIndex = 0 ∧
      s.slots = List.replicate slotsNum sentinel ∧
      s.entry.length = cap ∧
      (∀ i : Nat, i + 1 < cap → (s.entry[i]?).map (fun e => e.next) = some (i + 1)) ∧
      (s.entry[cap - 1]?).map (fun e => e.next) = some sentinel ∧
      freeList s = some (List.range cap) := by
  obtain ⟨sl, hsl1, hsl2, hsl3⟩ := initSlots_spec slotsNum 0 seg.slots (by omega)
  obtain ⟨es, hes1, hes2, hes3⟩ := initEntries_spec (cap - 1) 0 seg.entry (by omega)
  have h1 : ¬ cap * hashEntrySize > bytesNum := by omega
  have h2 : ¬ cap * hashEntrySize + hashMetaSize > bytesNum := by omega
  have h3 : ¬ cap * hashEntrySize + hashMetaSize + 4 * slotsNum > bytesNum := by omega
  have h4 : cap ≠ 0 := by omega
  have h5 : cap - 1 < es.length := by omega
  have hnext : ∀ i : Nat, i + 1 < cap →
      ((setNext es (cap - 1) sentinel)[i]?).map (fun e => e.next) = some (i + 1) := by
    intro i hi
    have hne : cap - 1 ≠ i := by omega
    have hin : 0 ≤ i ∧ i < 0 + (cap - 1) := by omega
    have hlt : i < seg.entry.length := by omega
    rw [setNext_getElem?, if_neg hne, hes3 i, if_pos hin, List.getElem?_eq_getElem hlt]
    simp only [Option.map_some', Option.some.injEq]
    exact Nat.mod_eq_of_lt (by omega)
  have hlast : ((setNext es (cap - 1) sentinel)[cap - 1]?).map (fun e => e.next)
      = some sentinel := by
    rw [setNext_getElem?, if_pos rfl, List.getElem?_eq_getElem h5]
    rfl
  refine ⟨{ entry := setNext es (cap - 1) sentinel,
            meta := { cap := cap % 2 ^ 32, size := 0, freeIndex := 0,
                      slotsNum := slotsNum % 2 ^ 32, bytesNum := bytesNum % 2 ^ 32 },
            slots := sl }, ?_, rfl, rfl, ?_, ?_, hnext, hlast, ?_⟩
  · unfold newHashSet
    simp only [h1, h2, h3, if_false, if_true, hsl1, hes1, h4, h5]
  · apply List.ext_getElem?
    intro j
    rw [hsl3 j]
    by_cases hj : j < slotsNum
    · have : 0 ≤ j ∧ j < 0 + slotsNum := by omega
      simp [this, hj]
    · have : ¬ (0 ≤ j ∧ j < 0 + slotsNum) := by omega
      rw [if_neg this, List.getElem?_eq_none (by omega), List.getElem?_eq_none (by simp; omega)]
  · show (setNext es (cap - 1) sentinel).length = cap
    rw [setNext_length]; omega
  · show chainFrom (setNext es (cap - 1) sentinel) ((setNext es (cap - 1) sentinel).length + 1) 0
      = some (List.range cap)
    have hch := isChain_threaded (setNext es (cap - 1) sentinel) cap hc32 hnext hlast
      (cap - 1) 0 (by omega)
    have hr : List.range' 0 (cap - 1 + 1) = List.range cap := by
      rw [List.range_eq_range']
      congr 1
      omega
    rw [hr] at hch
    exact chainFrom_of_isChain _ _ _ _ hch (by rw [setNext_length]; simp; omega)

/-- Instance of `newHashSet_init`: a zeroed segment of 284 bytes for 2 records
and 2 buckets. -/
theorem newHashSet_init_witness :
    ∃ s, newHashSet (blank 2 2) 284 2 2 true = .ok s ∧
      s.meta.size = 0 ∧ s.meta.freeIndex = 0 ∧
      s.slots = List.replicate 2 sentinel ∧
      s.entry.length = 2 ∧
      (∀ i : Nat, i + 1 < 2 → (s.entry[i]?).map (fun e => e.next) = some (i + 1)) ∧
      (s.entry[2 - 1]?).map (fun e => e.next) = some sentinel ∧
      freeList s = some (List.range 2) :=
  newHashSet_init (blank 2 2) 284 2 2 (by decide) (by decide) (by decide) rfl rfl

/-- C12 (counterexample): a segment initialised for 284 bytes and attached with
`init = false` and `bytesNum = 4096` is not left unchanged: the header field
`bytesNum` is overwritten with the argument. -/
theorem newHashSet_attach_rewrites_header :
    newHashSet (blank 2 2) 284 2 2 true = .ok fresh22 ∧
    fresh22.meta.bytesNum = 284 ∧
    newHashSet fresh22 4096 2 2 false
      = .ok { fresh22 with meta := { fresh22.meta with bytesNum := 4096 } } ∧
    ¬ (newHashSet fresh22 4096 2 2 false = .ok fresh22) :=
  ⟨by decide, rfl, by decide, by decide⟩

/-- C12 (amended): when it succeeds, `newHashSet` with `init = false` leaves
`size`, `freeIndex`, every bucket slot and every entry record as they were and
writes the arguments, as `uint32` values, to the header fields `slotsNum`,
`bytesNum` and `cap`. -/
theorem newHashSet_attach (seg : hashSet) (bytesNum cap slotsNum : Nat)
    (hfit : cap * hashEntrySize + hashMetaSize + 4 * slotsNum ≤ bytesNum) :
    newHashSet seg bytesNum cap slotsNum false =
      .ok { entry := seg.entry,
            meta := { cap := cap % 2 ^ 32, size := seg.meta.size,
                      freeIndex := seg.meta.freeIndex,
                      slotsNum := slotsNum % 2 ^ 32, bytesNum := bytesNum % 2 ^ 32 },
            slots := seg.slots } := by
  have h1 : ¬ cap * hashEntrySize > bytesNum := by omega
  have h2 : ¬ cap * hashEntrySize + hashMetaSize > bytesNum := by omega
  have h3 : ¬ cap * hashEntrySize + hashMetaSize + 4 * slotsNum > bytesNum := by omega
  unfold newHashSet
  simp only [h1, h2, h3, if_false, Bool.false_eq_true]

/-- Instance of `newHashSet_attach`: the segment of `heldLong` attached with the
arguments it was created with is returned as it is. -/
theorem newHashSet_attach_witness :
    newHashSet heldLong 284 2 2 false = .ok heldLong :=
  newHashSet_attach heldLong 284 2 2 (by decide)

/-- C18 (evaluation): `newHashSet` writes the header before it checks that the
header and the buckets fit. Attaching the initialised segment `fresh22` with 3
buckets returns the slots error after `slotsNum` was overwritten; a call with
`bytesNum = 256` and `cap = 2` returns the meta error after the three fields
were written at offset 256, which is not below `bytesNum`. -/
theorem newHashSet_error_after_write :
    newHashSet fresh22 284 2 3 false
      = .error "segment is not enough to map hashSet.slots"
          { fresh22 with meta := { fresh22.meta with slotsNum := 3 } } ∧
    fresh22.meta.slotsNum = 2 ∧
    newHashSet (blank 2 1) 256 2 1 true
      = .error "segment is not enough to map hashSet.meta"
          { blank 2 1 with
            meta := { cap := 2, size := 0, freeIndex := 0, slotsNum := 1, bytesNum := 256 } } ∧
    (blank 2 1).meta.cap = 0 ∧
    256 ≤ metaOffset 2 :=
  ⟨by decide, rfl, by decide, rfl, by decide⟩

/-- C19 (evaluation): with `cap = 0`, one bucket and 24 bytes (enough for the
header and the bucket), `newHashSet` with `init = true` passes the three size
checks, initialises the header and the bucket and then indexes the empty entry
array at `cap - 1`: it panics. -/
theorem newHashSet_zero_cap_panics :
    0 * hashEntrySize + hashMetaSize + 4 * 1 ≤ 24 ∧
    newHashSet (blank 0 1) 24 0 1 true
      = .panic { entry := [],
                 meta := { cap := 0, size := 0, freeIndex := 0, slotsNum := 1, bytesNum := 24 },
                 slots := [sentinel] } :=
  ⟨by decide, by decide⟩

/-! ## The search loop of `Alloc` as a search on the chain -/

/-- On a chain, the search loop of `Alloc` returns the first record that stores
the name, and otherwise runs to the sentinel with the last record in `entry`. -/
theorem allocWalk_eq_find (es : List hashEntry) (nameBytes : List Byte) :
    ∀ (l : List Nat) (fuel i : Nat) (prev : Option Nat), IsChain es i l → l.length ≤ fuel →
      allocWalk es nameBytes fuel i prev =
        match l.find? (holdsName es nameBytes) with
        | some j => .found j
        | none => .ended ((l.getLast?).or prev) := by
  intro l
  induction l with
  | nil =>
    intro fuel i prev h _
    have hi : i = sentinel := h
    cases fuel <;> simp [allocWalk, hi]
  | cons a rest ih =>
    intro fuel i prev h hf
    obtain ⟨hi, hia, e, he, hrest⟩ := h
    subst hia
    cases fuel with
    | zero => simp at hf
    | succ fuel =>
      have hrec := ih fuel e.next (some i) hrest (by simpa using hf)
      unfold allocWalk
      simp only [hi, if_false, he]
      by_cases hname : e.name = nameBytes
      · have hp : holdsName es nameBytes i = true := by simp [holdsName, he, hname]
        simp [equalName, hname, List.find?_cons_of_pos, hp]
      · have hp : ¬ holdsName es nameBytes i = true := by simp [holdsName, he, hname]
        rw [List.find?_cons_of_neg _ hp]
        simp only [equalName, hname, decide_False, Bool.false_eq_true, if_false]
        rw [hrec]
        cases hfind : rest.find? (holdsName es nameBytes) with
        | some j => rfl
        | none =>
          cases rest with
          | nil => simp
          | cons b rest2 =>
            simp only
            rw [List.getLast?_cons_cons]
            cases hq : (b :: rest2).getLast? with
            | none => simp at hq
            | some x => rfl

/-- C17: in a well-formed state, for a name whose converted form is stored on the
chain of its bucket, `Alloc` returns the first record of that chain with an
equal stored name, with `created = false`, and the state it returns is the state
it was given, reference counts included. -/
theorem Alloc_existing (maxNameLength : Nat) (s : hashSet) (name : List Byte)
    (hm : 10 ≤ maxNameLength) (hwf : WellFormed s)
    (hst : StoredInBucket maxNameLength s name) :
    ∃ pre j post,
      bucketChain s (hash name % s.meta.slotsNum) = some (pre ++ j :: post) ∧
      (∀ k ∈ pre, holdsName s.entry (specName maxNameLength name) k = false) ∧
      holdsName s.entry (specName maxNameLength name) j = true ∧
      Alloc maxNameLength s name = .ok (s, some j, false) := by
  obtain ⟨_, hslen, hspos, _, hchains, _, _, _⟩ := hwf
  have hslot : hash name % s.meta.slotsNum < s.slots.length := by
    rw [hslen]; exact Nat.mod_lt _ hspos
  obtain ⟨l, hl⟩ := Option.isSome_iff_exists.mp (hchains _ hslot)
  obtain ⟨head, hh, hch⟩ := bucketChain_head s _ l hl
  have hc := convertName_eq_specName maxNameLength name hm
  obtain ⟨k, hk, hkn⟩ := hst
  rw [hl, Option.getD_some] at hk
  rw [hc] at hkn
  have hsome : (l.find? (holdsName s.entry (specName maxNameLength name))).isSome = true :=
    List.find?_isSome.mpr ⟨k, hk, by simp [holdsName, hkn]⟩
  obtain ⟨j, hj⟩ := Option.isSome_iff_exists.mp hsome
  obtain ⟨hpj, pre, post, hsplit, hpre⟩ := List.find?_eq_some.mp hj
  have hw := allocWalk_eq_find s.entry (specName maxNameLength name) l (s.entry.length + 1)
    head none (chainFrom_isChain _ _ _ _ hch) (chainFrom_length_le _ _ _ _ hch)
  rw [hj] at hw
  refine ⟨pre, j, post, by rw [hl, hsplit], ?_, hpj, ?_⟩
  · intro k hk
    simpa using hpre k hk
  · exact Alloc_of_found maxNameLength s name _ head j hspos hc hh hw

/-- Instance of `Alloc_existing`: "b" is the second record of the only bucket
of `fullAB`. -/
theorem Alloc_existing_witness :
    ∃ pre j post,
      bucketChain fullAB (hash [98] % fullAB.meta.slotsNum) = some (pre ++ j :: post) ∧
      (∀ k ∈ pre, holdsName fullAB.entry (specName 107 [98]) k = false) ∧
      holdsName fullAB.entry (specName 107 [98]) j = true ∧
      Alloc 107 fullAB [98] = .ok (fullAB, some j, false) :=
  Alloc_existing 107 fullAB [98] (by decide) (by decide) (by decide)

/-! ## Facts of well-formed states -/

/-- In a well-formed state the chains of two different buckets share no
record, the free list has no repetition and shares no record with a chain. -/
theorem WellFormed.disjoint_facts {s : hashSet} (hwf : WellFormed s) (fl : List Nat)
    (hfl : freeList s = some fl) :
    fl.Nodup ∧
    (∀ slot l, slot < s.slots.length → bucketChain s slot = some l →
      l.Nodup ∧ (∀ j ∈ l, j ∉ fl) ∧
      ∀ slot2 l2, slot2 < s.slots.length → slot2 ≠ slot → bucketChain s slot2 = some l2 →
        ∀ j ∈ l, j ∉ l2) := by
  obtain ⟨_, _, _, _, _, _, hnd, _⟩ := hwf
  unfold allChains at hnd
  rw [hfl] at hnd
  simp only [Option.getD_some] at hnd
  obtain ⟨hA, hF, hdisj⟩ := List.nodup_append.mp hnd
  refine ⟨hF, ?_⟩
  intro slot l hslot hl
  have hmem : l ∈ (List.range s.slots.length).map (fun slot => (bucketChain s slot).getD []) :=
    List.mem_map.mpr ⟨slot, List.mem_range.mpr hslot, by simp [hl]⟩
  obtain ⟨hnds, hpw⟩ := List.nodup_flatten.mp hA
  refine ⟨hnds l hmem, fun j hj hjf => hdisj (List.mem_flatten_of_mem hmem hj) hjf, ?_⟩
  intro slot2 l2 hslot2 hne hl2 j hj hj2
  rw [List.pairwise_map] at hpw
  have hsym : Symmetric (fun a b : Nat =>
      List.Disjoint ((bucketChain s a).getD []) ((bucketChain s b).getD [])) :=
    fun a b h => h.symm
  have hd := hpw.forall hsym (List.mem_range.mpr hslot) (List.mem_range.mpr hslot2)
    (Ne.symm hne)
  rw [hl, hl2] at hd
  exact hd hj hj2

/-! ## The state after a creating `Alloc` -/

/-- A creating `Alloc` in a well-formed state, record by record: the head `fi` of
the free list receives the name, reference count 1 and the sentinel as `next`;
the last record of the bucket chain, if there is one, gets `fi` as `next`; all
other records are untouched. -/
theorem Alloc_create (maxNameLength : Nat) (s : hashSet) (name : List Byte)
    (hm : 10 ≤ maxNameLength) (hwf : WellFormed s) (hlt : s.meta.size < s.meta.cap)
    (hn : ¬ StoredInBucket maxNameLength s name) :
    ∃ s' l rest newEntry,
      bucketChain s (hash name % s.meta.slotsNum) = some l ∧
      freeList s = some (s.meta.freeIndex :: rest) ∧
      s.entry[s.meta.freeIndex]? = some newEntry ∧
      Alloc maxNameLength s name = .ok (s', some s.meta.freeIndex, true) ∧
      s'.meta = { s.meta with size := s.meta.size + 1, freeIndex := newEntry.next } ∧
      s'.slots = (if l = [] then
          s.slots.set (hash name % s.meta.slotsNum) s.meta.freeIndex else s.slots) ∧
      s'.entry.length = s.entry.length ∧
      s'.entry[s.meta.freeIndex]? =
        some { name := specName maxNameLength name, value := newEntry.value, ref := 1,
               next := sentinel } ∧
      ∀ j : Nat, j ≠ s.meta.freeIndex →
        s'.entry[j]? =
          if l.getLast? = some j then
            (s.entry[j]?).map (fun e => { e with next := s.meta.freeIndex })
          else s.entry[j]? := by
  have hwf' := hwf
  obtain ⟨hcap, hslen, hspos, hc32, hchains, hfree, _, hsz⟩ := hwf'
  have hslot : hash name % s.meta.slotsNum < s.slots.length := by
    rw [hslen]; exact Nat.mod_lt _ hspos
  obtain ⟨l, hl⟩ := Option.isSome_iff_exists.mp (hchains _ hslot)
  obtain ⟨fl, hfl⟩ := Option.isSome_iff_exists.mp hfree
  obtain ⟨head, hh, hch⟩ := bucketChain_head s _ l hl
  obtain ⟨_, hfacts⟩ := hwf.disjoint_facts fl hfl
  obtain ⟨hndl, hdisj, _⟩ := hfacts _ l hslot hl
  have hc := convertName_eq_specName maxNameLength name hm
  have hL := chainFrom_isChain _ _ _ _ hch
  have hF : IsChain s.entry s.meta.freeIndex fl := chainFrom_isChain _ _ _ _ hfl
  have hnames := not_stored_chain _ s name _ l hc hl hn
  rw [hfl] at hsz
  simp only [Option.getD_some] at hsz
  cases fl with
  | nil => simp at hsz; omega
  | cons f rest =>
    obtain ⟨hfs, hff, newEntry, hnew, _⟩ := hF
    have hfl2 : freeList s = some (s.meta.freeIndex :: rest) := by rw [hfl, ← hff]
    have hfl' : s.meta.freeIndex ∉ l := by
      intro hmem
      exact hdisj _ hmem (by rw [hff]; exact List.mem_cons_self _ _)
    have hflt : s.meta.freeIndex < s.entry.length := by
      rcases Nat.lt_or_ge s.meta.freeIndex s.entry.length with h | h
      · exact h
      · rw [List.getElem?_eq_none h] at hnew; cases hnew
    have hw1 := allocWalk_ended s.entry _ l (s.entry.length + 1) head none hL hnames
      (chainFrom_length_le _ _ _ _ hch)
    rw [Option.or_none] at hw1
    have hlastne : ∀ last, l.getLast? = some last → last ≠ s.meta.freeIndex := by
      intro last hlast h
      exact hfl' (h ▸ List.mem_of_getLast?_eq_some hlast)
    have hcur : (match l.getLast? with
        | none => s.entry.set s.meta.freeIndex
            { assignName newEntry (specName maxNameLength name) with ref := 1 }
        | some last =>
          setNext (s.entry.set s.meta.freeIndex
            { assignName newEntry (specName maxNameLength name) with ref := 1 })
            last s.meta.freeIndex)[s.meta.freeIndex]?
        = some { assignName newEntry (specName maxNameLength name) with ref := 1 } := by
      cases hq : l.getLast? with
      | none => simp [hflt]
      | some last =>
        simp only
        rw [setNext_getElem?, if_neg (hlastne last hq)]
        simp [hflt]
    refine ⟨_, l, rest, newEntry, hl, hfl2, hnew,
      Alloc_of_create maxNameLength s name _ head _ newEntry _ hspos hc hh hw1 hlt hnew hcur,
      ?_, ?_, ?_, ?_, ?_⟩
    · show ({ s.meta with size := (s.meta.size + 1) % 2 ^ 32, freeIndex := newEntry.next } : meta)
        = { s.meta with size := s.meta.size + 1, freeIndex := newEntry.next }
      rw [Nat.mod_eq_of_lt (by omega)]
    · cases l with
      | nil => simp
      | cons a rest2 =>
        cases hq : (a :: rest2).getLast? with
        | none => simp at hq
        | some last => simp [hq]
    · cases hq : l.getLast? with
      | none => simp [hq]
      | some last => simp [hq, setNext_length]
    · cases hq : l.getLast? with
      | none =>
        simp only [hq]
        rw [List.getElem?_set_self (by simpa using hflt)]
        rfl
      | some last =>
        simp only [hq]
        rw [List.getElem?_set_self (by simpa [setNext_length] using hflt)]
        rfl
    · intro j hj
      cases hq : l.getLast? with
      | none =>
        simp only [hq]
        rw [List.getElem?_set_ne (Ne.symm hj), List.getElem?_set_ne (Ne.symm hj)]
        simp
      | some last =>
        simp only [hq]
        rw [List.getElem?_set_ne (Ne.symm hj), setNext_getElem?,
          List.getElem?_set_ne (Ne.symm hj)]
        by_cases hlj : last = j
        · simp [hlj]
        · simp [hlj]

/-! ## Chains after a creating `Alloc` -/

theorem chainFrom_unchanged (es es' : List hashEntry) (fuel i : Nat) (l : List Nat)
    (h : chainFrom es fuel i = some l) (hsame : ∀ j ∈ l, es'[j]? = es[j]?) :
    chainFrom es' fuel i = some l := by
  apply chainFrom_of_isChain es' l fuel i _ (chainFrom_length_le _ _ _ _ h)
  apply IsChain_congr es es' l i _ (chainFrom_isChain _ _ _ _ h)
  intro j hj
  rw [hsame j hj]

/-- A chain whose last record is redirected to `fi`, itself ending the chain,
is the old chain followed by `fi`. -/
theorem IsChain_linked (es es' : List hashEntry) (fi last : Nat) (hfi : fi ≠ sentinel)
    (hnew : ∃ x, es'[fi]? = some x ∧ x.next = sentinel) :
    ∀ (l : List Nat) (i : Nat), IsChain es i l → l.Nodup → l.getLast? = some last →
      (∀ j ∈ l, es'[j]? =
        if last = j then (es[j]?).map (fun e => { e with next := fi }) else es[j]?) →
      IsChain es' i (l ++ [fi]) := by
  intro l
  induction l with
  | nil => intro i _ _ hlast; simp at hlast
  | cons a rest ih =>
    intro i h hnd hlast hupd
    obtain ⟨hi, hia, e, he, hrest⟩ := h
    subst hia
    have hu := hupd i (List.mem_cons_self _ _)
    rw [he] at hu
    cases rest with
    | nil =>
      have hil : last = i := by simpa using hlast.symm
      rw [if_pos hil] at hu
      obtain ⟨x, hx, hxn⟩ := hnew
      exact ⟨hi, rfl, _, hu, hfi, rfl, x, hx, hxn⟩
    | cons b rest2 =>
      have hlast2 : (b :: rest2).getLast? = some last := by
        rw [← hlast, List.getLast?_cons_cons]
      have hmem : last ∈ b :: rest2 := List.mem_of_getLast?_eq_some hlast2
      have hil : ¬ last = i := by
        intro hEq
        rw [hEq] at hmem
        exact (List.nodup_cons.mp hnd).1 hmem
      rw [if_neg hil] at hu
      exact ⟨hi, rfl, e, hu, ih e.next hrest (List.nodup_cons.mp hnd).2 hlast2
        (fun j hj => hupd j (List.mem_cons_of_mem _ hj))⟩

/-- C15: in a well-formed state with `size < cap`, for a name not stored in its
bucket, the creating `Alloc` appends at the tail: the chain of the bucket of the
name is afterwards the chain before followed by the old `freeIndex`, the `next`
of the new record is the sentinel, and the chain of every other bucket is as
before. -/
theorem Alloc_appends (maxNameLength : Nat) (s : hashSet) (name : List Byte)
    (hm : 10 ≤ maxNameLength) (hwf : WellFormed s) (hlt : s.meta.size < s.meta.cap)
    (hn : ¬ StoredInBucket maxNameLength s name) :
    ∃ s' l,
      bucketChain s (hash name % s.meta.slotsNum) = some l ∧
      Alloc maxNameLength s name = .ok (s', some s.meta.freeIndex, true) ∧
      bucketChain s' (hash name % s.meta.slotsNum) = some (l ++ [s.meta.freeIndex]) ∧
      (s'.entry[s.meta.freeIndex]?).map (fun e => e.next) = some sentinel ∧
      ∀ slot2, slot2 < s.meta.slotsNum → slot2 ≠ hash name % s.meta.slotsNum →
        bucketChain s' slot2 = bucketChain s slot2 := by
  obtain ⟨s', l, rest, newEntry, hl, hfl, hnew, hA, hmeta, hslots, hlen, hfi, hother⟩ :=
    Alloc_create maxNameLength s name hm hwf hlt hn
  have hwf' := hwf
  obtain ⟨hcap, hslen, hspos, hc32, hchains, _, _, _⟩ := hwf'
  have hslot : hash name % s.meta.slotsNum < s.slots.length := by
    rw [hslen]; exact Nat.mod_lt _ hspos
  obtain ⟨hndf, hfacts⟩ := hwf.disjoint_facts _ hfl
  obtain ⟨hndl, hdisj, hdisj2⟩ := hfacts _ l hslot hl
  obtain ⟨head, hh, hch⟩ := bucketChain_head s _ l hl
  have hL := chainFrom_isChain _ _ _ _ hch
  have hfil : s.meta.freeIndex ∉ l := fun hmem => hdisj _ hmem (List.mem_cons_self _ _)
  have hflt : s.meta.freeIndex < s.entry.length := by
    rcases Nat.lt_or_ge s.meta.freeIndex s.entry.length with h | h
    · exact h
    · rw [List.getElem?_eq_none h] at hnew; cases hnew
  have hfs : s.meta.freeIndex ≠ sentinel := by
    unfold sentinel; omega
  have hll : l.length ≤ s.entry.length :=
    nodup_length_le l _ hndl (fun j hj => hL.lt_length j hj)
  refine ⟨s', l, hl, hA, ?_, by rw [hfi]; rfl, ?_⟩
  · unfold bucketChain
    rw [hslots, hlen]
    cases l with
    | nil =>
      have hhead : head = sentinel := hL
      simp only [if_true, List.nil_append]
      rw [List.getElem?_set_self hslot]
      simp only
      apply chainFrom_of_isChain _ _ _ _ _ (by simp)
      exact ⟨hfs, rfl, _, hfi, rfl⟩
    | cons a rest2 =>
      obtain ⟨last, hlast⟩ : ∃ last, (a :: rest2).getLast? = some last := by
        cases hq : (a :: rest2).getLast? with
        | none => simp at hq
        | some x => exact ⟨x, rfl⟩
      simp only [if_false, hh, reduceCtorEq]
      apply chainFrom_of_isChain _ _ _ _ _ (by simp at hll ⊢; omega)
      apply IsChain_linked s.entry s'.entry s.meta.freeIndex last hfs ⟨_, hfi, rfl⟩
        (a :: rest2) head hL hndl hlast
      intro j hj
      have hjne : j ≠ s.meta.freeIndex := fun h => hfil (h ▸ hj)
      rw [hother j hjne, hlast]
      by_cases hlj : last = j
      · simp [hlj]
      · simp [hlj]
  · intro slot2 hs2 hne
    have hslot2 : slot2 < s.slots.length := by rw [hslen]; exact hs2
    obtain ⟨l2, hl2⟩ := Option.isSome_iff_exists.mp (hchains _ hslot2)
    obtain ⟨head2, hh2, hch2⟩ := bucketChain_head s _ l2 hl2
    obtain ⟨_, hdisjf2, hdisj12⟩ := hfacts _ l2 hslot2 hl2
    have hslots2 : s'.slots[slot2]? = some head2 := by
      rw [hslots]
      split
      · rw [List.getElem?_set_ne (Ne.symm hne)]; exact hh2
      · exact hh2
    rw [hl2]
    unfold bucketChain
    rw [hslots2, hlen]
    simp only
    apply chainFrom_unchanged s.entry s'.entry _ _ _ hch2
    intro j hj
    have hjne : j ≠ s.meta.freeIndex := fun h =>
      hdisjf2 j hj (h ▸ List.mem_cons_self _ _)
    have hjl : ¬ l.getLast? = some j := fun h =>
      hdisj12 _ l hslot (Ne.symm hne) hl j hj (List.mem_of_getLast?_eq_some h)
    rw [hother j hjne, if_neg hjl]

/-- Instance of `Alloc_appends`: "b" is appended behind "a" in the only
bucket of `heldA`. -/
theorem Alloc_appends_witness :
    ∃ s' l,
      bucketChain heldA (hash [98] % heldA.meta.slotsNum) = some l ∧
      Alloc 107 heldA [98] = .ok (s', some heldA.meta.freeIndex, true) ∧
      bucketChain s' (hash [98] % heldA.meta.slotsNum) = some (l ++ [heldA.meta.freeIndex]) ∧
      (s'.entry[heldA.meta.freeIndex]?).map (fun e => e.next) = some sentinel ∧
      ∀ slot2, slot2 < heldA.meta.slotsNum → slot2 ≠ hash [98] % heldA.meta.slotsNum →
        bucketChain s' slot2 = bucketChain heldA slot2 :=
  Alloc_appends 107 heldA [98] (by decide) (by decide) (by decide) (by decide)

/-- C16: in a well-formed state with `size < cap`, for a name not stored in its
bucket, the creating `Alloc` pops the head of the free list: it returns
`entry[freeIndex]`, which then has reference count 1 and stores the converted
name; `size` grows by exactly 1; the new `freeIndex` is the `next` that record
held before the call, and the free list is the old one without its first
element. -/
theorem Alloc_pops_free_list (maxNameLength : Nat) (s : hashSet) (name : List Byte)
    (hm : 10 ≤ maxNameLength) (hwf : WellFormed s) (hlt : s.meta.size < s.meta.cap)
    (hn : ¬ StoredInBucket maxNameLength s name) :
    ∃ s' rest newEntry,
      freeList s = some (s.meta.freeIndex :: rest) ∧
      s.entry[s.meta.freeIndex]? = some newEntry ∧
      Alloc maxNameLength s name = .ok (s', some s.meta.freeIndex, true) ∧
      s'.entry[s.meta.freeIndex]? =
        some { name := specName maxNameLength name, value := newEntry.value, ref := 1,
               next := sentinel } ∧
      s'.meta.size = s.meta.size + 1 ∧
      s'.meta.freeIndex = newEntry.next ∧
      freeList s' = some rest := by
  obtain ⟨s', l, rest, newEntry, hl, hfl, hnew, hA, hmeta, hslots, hlen, hfi, hother⟩ :=
    Alloc_create maxNameLength s name hm hwf hlt hn
  have hwf' := hwf
  obtain ⟨_, hslen, hspos, _, _, _, _, _⟩ := hwf'
  have hslot : hash name % s.meta.slotsNum < s.slots.length := by
    rw [hslen]; exact Nat.mod_lt _ hspos
  obtain ⟨hndf, hfacts⟩ := hwf.disjoint_facts _ hfl
  obtain ⟨_, hdisj, _⟩ := hfacts _ l hslot hl
  refine ⟨s', rest, newEntry, hfl, hnew, hA, hfi, by rw [hmeta], by rw [hmeta], ?_⟩
  have hF : IsChain s.entry s.meta.freeIndex (s.meta.freeIndex :: rest) :=
    chainFrom_isChain _ _ _ _ hfl
  obtain ⟨_, _, e, he, hrest⟩ := hF
  rw [hnew] at he
  cases he
  have hlenr : rest.length ≤ s'.entry.length + 1 := by
    have := chainFrom_length_le _ _ _ _ hfl
    simp at this
    omega
  unfold freeList
  rw [hmeta]
  apply chainFrom_of_isChain _ _ _ _ _ hlenr
  apply IsChain_congr s.entry s'.entry rest _ _ hrest
  intro j hj
  have hjne : j ≠ s.meta.freeIndex := by
    intro h
    rw [h] at hj
    exact (List.nodup_cons.mp hndf).1 hj
  have hjl : ¬ l.getLast? = some j := fun h =>
    hdisj j (List.mem_of_getLast?_eq_some h) (List.mem_cons_of_mem _ hj)
  rw [hother j hjne, if_neg hjl]

set_option maxRecDepth 100000 in
/-- Instance of `Alloc_pops_free_list`: a 108-byte name takes record 0 of the
fresh set `fresh22`, whose free list is `[0, 1]`. -/
theorem Alloc_pops_free_list_witness :
    ∃ s' rest newEntry,
      freeList fresh22 = some (fresh22.meta.freeIndex :: rest) ∧
      fresh22.entry[fresh22.meta.freeIndex]? = some newEntry ∧
      Alloc 107 fresh22 longName = .ok (s', some fresh22.meta.freeIndex, true) ∧
      s'.entry[fresh22.meta.freeIndex]? =
        some { name := specName 107 longName, value := newEntry.value, ref := 1,
               next := sentinel } ∧
      s'.meta.size = fresh22.meta.size + 1 ∧
      s'.meta.freeIndex = newEntry.next ∧
      freeList s' = some rest :=
  Alloc_pops_free_list 107 fresh22 longName (by decide) (by decide) (by decide) (by decide)

/-! ## The state after an unlinking `Free` -/

/-- The search loop of `Free` on a chain that holds the record stops at it and
leaves its predecessor in `prev`. -/
theorem freeWalk_stop (es : List hashEntry) (i : Nat) (post : List Nat) :
    ∀ (pre : List Nat) (fuel h : Nat) (prev : Option Nat),
      IsChain es h (pre ++ i :: post) → i ∉ pre → pre.length + 1 ≤ fuel →
      freeWalk es i fuel h prev = .stopped i ((pre.getLast?).or prev) := by
  intro pre
  induction pre with
  | nil =>
    intro fuel h prev hc _ hf
    obtain ⟨hs, hhi, e, he, _⟩ := hc
    subst hhi
    cases fuel with
    | zero => simp at hf
    | succ fuel =>
      unfold freeWalk
      simp [hs, he]
  | cons a rest ih =>
    intro fuel h prev hc hni hf
    obtain ⟨hs, hha, e, he, hrest⟩ := hc
    subst hha
    have hne : h ≠ i := fun hEq => hni (hEq ▸ List.mem_cons_self _ _)
    cases fuel with
    | zero => simp at hf
    | succ fuel =>
      have hrec := ih fuel e.next (some h) hrest
        (fun hmem => hni (List.mem_cons_of_mem _ hmem)) (by simpa using hf)
      unfold freeWalk
      simp only [hs, if_false, he, hne]
      rw [hrec]
      cases rest with
      | nil => simp
      | cons b rest2 =>
        rw [List.getLast?_cons_cons]
        cases hq : (b :: rest2).getLast? with
        | none => simp at hq
        | some x => rfl

theorem Free_of_stop (s : hashSet) (i : Nat) (e : hashEntry) (head index : Nat)
    (prev : Option Nat) (he : s.entry[i]? = some e) (href : e.ref = 1)
    (hs : 0 < s.meta.slotsNum)
    (hh : s.slots[hash e.name % s.meta.slotsNum]? = some head)
    (hw : freeWalk (s.entry.set i { e with ref := 0 }) i (s.entry.length + 1) head none
      = .stopped index prev) :
    Free s i =
      .ok { entry := ((prev.map (fun p =>
                setNext (s.entry.set i { e with ref := 0 }) p e.next)).getD
                (s.entry.set i { e with ref := 0 })).set i
              { zeroEntry with next := s.meta.freeIndex },
            meta := { s.meta with freeIndex := index },
            slots := (prev.map (fun _ => s.slots)).getD
                (s.slots.set (hash e.name % s.meta.slotsNum) e.next) } := by
  have hd : decRef e = ({ e with ref := 0 }, true) := by
    unfold decRef
    rw [href]
    rfl
  unfold Free
  rw [he]
  simp only [hd]
  simp only [getName, if_true, Nat.ne_of_gt hs, if_false, hh, List.length_set, hw]
  cases prev <;> rfl

/-- A chain from which the record `i` is cut out by redirecting its predecessor
`last` to the successor of `i`. -/
theorem IsChain_unlinked (es es' : List hashEntry) (i last inext : Nat) (post : List Nat)
    (hin : (es[i]?).map (fun e => e.next) = some inext) :
    ∀ (pre : List Nat) (h : Nat), IsChain es h (pre ++ i :: post) →
      (pre ++ i :: post).Nodup → pre.getLast? = some last →
      (∀ j ∈ pre ++ post, es'[j]? =
        if last = j then (es[j]?).map (fun e => { e with next := inext }) else es[j]?) →
      IsChain es' h (pre ++ post) := by
  intro pre
  induction pre with
  | nil => intro h _ _ hlast; simp at hlast
  | cons a rest ih =>
    intro h hc hnd hlast hupd
    obtain ⟨hs, hha, e, he, hrest⟩ := hc
    subst hha
    have hu := hupd h (List.mem_cons_self _ _)
    rw [he] at hu
    have hnd' : (rest ++ i :: post).Nodup := (List.nodup_cons.mp hnd).2
    have hnotin : h ∉ rest ++ i :: post := (List.nodup_cons.mp hnd).1
    cases rest with
    | nil =>
      have hil : last = h := by simpa using hlast.symm
      rw [if_pos hil] at hu
      obtain ⟨_, hei, ei, hei2, hpost⟩ := hrest
      rw [← hei, hei2] at hin
      simp at hin
      refine ⟨hs, rfl, _, hu, ?_⟩
      show IsChain es' inext post
      rw [← hin]
      apply IsChain_congr es es' post _ _ hpost
      intro j hj
      have hjl : ¬ last = j := by
        intro hEq
        apply hnotin
        rw [← hil, hEq]
        simp [hj]
      rw [hupd j (by simp [hj]), if_neg hjl]
    | cons b rest2 =>
      have hlast2 : (b :: rest2).getLast? = some last := by
        rw [← hlast, List.getLast?_cons_cons]
      have hmem : last ∈ b :: rest2 := List.mem_of_getLast?_eq_some hlast2
      have hil : ¬ last = h := by
        intro hEq
        apply hnotin
        rw [← hEq]
        exact List.mem_append_left _ hmem
      rw [if_neg hil] at hu
      refine ⟨hs, rfl, e, hu, ?_⟩
      exact ih e.next hrest hnd' hlast2 (fun j hj => hupd j (List.mem_cons_of_mem _ hj))

/-- An unlinking `Free` in a well-formed state, record by record: the freed
record is zeroed and points to the old `freeIndex`, its predecessor on the
chain, if there is one, takes over its `next`, and all other records are
untouched. -/
theorem Free_unlink (s : hashSet) (i : Nat) (e : hashEntry) (l : List Nat)
    (hwf : WellFormed s) (he : s.entry[i]? = some e) (href : e.ref = 1)
    (hl : bucketChain s (hash e.name % s.meta.slotsNum) = some l) (hi : i ∈ l) :
    ∃ s' pre post,
      l = pre ++ i :: post ∧ i ∉ pre ∧ i ∉ post ∧
      Free s i = .ok s' ∧
      s'.meta = { s.meta with freeIndex := i } ∧
      s'.slots = (if pre = [] then
          s.slots.set (hash e.name % s.meta.slotsNum) e.next else s.slots) ∧
      s'.entry.length = s.entry.length ∧
      s'.entry[i]? = some { zeroEntry with next := s.meta.freeIndex } ∧
      ∀ j : Nat, j ≠ i →
        s'.entry[j]? =
          if pre.getLast? = some j then
            (s.entry[j]?).map (fun x => { x with next := e.next })
          else s.entry[j]? := by
  have hwf' := hwf
  obtain ⟨_, hslen, hspos, _, hchains, hfree, _, _⟩ := hwf'
  have hslot : hash e.name % s.meta.slotsNum < s.slots.length := by
    rw [hslen]; exact Nat.mod_lt _ hspos
  obtain ⟨fl, hfl⟩ := Option.isSome_iff_exists.mp hfree
  obtain ⟨_, hfacts⟩ := hwf.disjoint_facts fl hfl
  obtain ⟨hndl, _, _⟩ := hfacts _ l hslot hl
  obtain ⟨head, hh, hch⟩ := bucketChain_head s _ l hl
  have hL := chainFrom_isChain _ _ _ _ hch
  obtain ⟨pre, post, hsplit⟩ := List.append_of_mem hi
  subst hsplit
  have hipre : i ∉ pre := by
    intro hmem
    have := List.nodup_append.mp hndl
    exact this.2.2 hmem (List.mem_cons_self _ _)
  have hipost : i ∉ post := by
    have := (List.nodup_append.mp hndl).2.1
    exact (List.nodup_cons.mp this).1
  have hilt : i < s.entry.length := by
    rcases Nat.lt_or_ge i s.entry.length with h | h
    · exact h
    · rw [List.getElem?_eq_none h] at he; cases he
  have hL1 : IsChain (s.entry.set i { e with ref := 0 }) head (pre ++ i :: post) :=
    IsChain_congr s.entry _ _ head (fun j _ => next_set_ref s.entry i e 0 he j) hL
  have hlen : (pre ++ i :: post).length ≤ s.entry.length :=
    nodup_length_le _ _ hndl (fun j hj => hL.lt_length j hj)
  have hw := freeWalk_stop (s.entry.set i { e with ref := 0 }) i post pre
    (s.entry.length + 1) head none hL1 hipre (by simp at hlen; omega)
  rw [Option.or_none] at hw
  have hlastne : ∀ last, pre.getLast? = some last → last ≠ i := by
    intro last hlast h
    exact hipre (h ▸ List.mem_of_getLast?_eq_some hlast)
  refine ⟨_, pre, post, rfl, hipre, hipost,
    Free_of_stop s i e head i _ he href hspos hh hw, rfl, ?_, ?_, ?_, ?_⟩
  · cases pre with
    | nil => simp
    | cons a rest2 =>
      cases hq : (a :: rest2).getLast? with
      | none => simp at hq
      | some last => simp [hq]
  · cases hq : pre.getLast? with
    | none => simp [hq]
    | some last => simp [hq, setNext_length]
  · cases hq : pre.getLast? with
    | none =>
      simp only [hq, Option.map_none', Option.getD_none]
      rw [List.getElem?_set_self (by simpa using hilt)]
    | some last =>
      simp only [hq, Option.map_some', Option.getD_some]
      rw [List.getElem?_set_self (by simpa [setNext_length] using hilt)]
  · intro j hj
    cases hq : pre.getLast? with
    | none =>
      simp only [hq, Option.map_none', Option.getD_none]
      rw [List.getElem?_set_ne (Ne.symm hj), List.getElem?_set_ne (Ne.symm hj)]
      simp
    | some last =>
      simp only [hq, Option.map_some', Option.getD_some]
      rw [List.getElem?_set_ne (Ne.symm hj), setNext_getElem?,
        List.getElem?_set_ne (Ne.symm hj)]
      by_cases hlj : last = j
      · simp [hlj]
      · simp [hlj]

theorem find?_congr_on (p q : Nat → Bool) :
    ∀ l : List Nat, (∀ k ∈ l, q k = p k) → l.find? q = l.find? p := by
  intro l
  induction l with
  | nil => intro _; rfl
  | cons a rest ih =>
    intro h
    rw [List.find?_cons, List.find?_cons, h a (List.mem_cons_self _ _),
      ih (fun k hk => h k (List.mem_cons_of_mem _ hk))]

/-- Every bucket chain after an unlinking `Free` is the chain before without
the freed record. -/
theorem Free_chains (s s' : hashSet) (i : Nat) (e : hashEntry) (pre post : List Nat)
    (hwf : WellFormed s) (he : s.entry[i]? = some e)
    (hl : bucketChain s (hash e.name % s.meta.slotsNum) = some (pre ++ i :: post))
    (hslots : s'.slots = (if pre = [] then
        s.slots.set (hash e.name % s.meta.slotsNum) e.next else s.slots))
    (hlen : s'.entry.length = s.entry.length)
    (hother : ∀ j : Nat, j ≠ i →
      s'.entry[j]? =
        if pre.getLast? = some j then
          (s.entry[j]?).map (fun x => { x with next := e.next })
        else s.entry[j]?) :
    ∀ slot2 l2, slot2 < s.meta.slotsNum → bucketChain s slot2 = some l2 →
      bucketChain s' slot2 = some (l2.erase i) := by
  have hwf' := hwf
  obtain ⟨_, hslen, hspos, _, hchains, hfree, _, _⟩ := hwf'
  have hslot : hash e.name % s.meta.slotsNum < s.slots.length := by
    rw [hslen]; exact Nat.mod_lt _ hspos
  obtain ⟨fl, hfl⟩ := Option.isSome_iff_exists.mp hfree
  obtain ⟨_, hfacts⟩ := hwf.disjoint_facts fl hfl
  obtain ⟨hndl, _, hdisj2⟩ := hfacts _ _ hslot hl
  obtain ⟨head, hh, hch⟩ := bucketChain_head s _ _ hl
  have hL := chainFrom_isChain _ _ _ _ hch
  have hipre : i ∉ pre := fun hmem =>
    (List.nodup_append.mp hndl).2.2 hmem (List.mem_cons_self _ _)
  intro slot2 l2 hs2 hl2
  have hslot2 : slot2 < s.slots.length := by rw [hslen]; exact hs2
  by_cases hsame : slot2 = hash e.name % s.meta.slotsNum
  · subst hsame
    rw [hl] at hl2
    cases hl2
    rw [List.erase_append_right _ hipre, List.erase_cons_head]
    have hll : (pre ++ post).length ≤ s'.entry.length + 1 := by
      have := chainFrom_length_le _ _ _ _ hch
      simp at this ⊢
      omega
    unfold bucketChain
    rw [hslots]
    cases pre with
    | nil =>
      obtain ⟨_, hhi, ei, hei, hpost⟩ := hL
      rw [hhi, he] at hei
      cases hei
      simp only [if_true, List.nil_append]
      rw [List.getElem?_set_self hslot]
      simp only
      apply chainFrom_of_isChain _ _ _ _ _ (by simpa using hll)
      apply IsChain_congr s.entry s'.entry post _ _ hpost
      intro j hj
      have hji : j ≠ i := by
        intro h
        rw [h] at hj
        exact (List.nodup_cons.mp hndl).1 hj
      rw [hother j hji]
      simp
    | cons a rest2 =>
      obtain ⟨last, hlast⟩ : ∃ last, (a :: rest2).getLast? = some last := by
        cases hq : (a :: rest2).getLast? with
        | none => simp at hq
        | some x => exact ⟨x, rfl⟩
      simp only [if_false, hh, reduceCtorEq]
      apply chainFrom_of_isChain _ _ _ _ _ hll
      apply IsChain_unlinked s.entry s'.entry i last e.next post (by rw [he]; rfl)
        (a :: rest2) head hL hndl hlast
      intro j hj
      have hji : j ≠ i := by
        intro h
        rw [h] at hj
        rcases List.mem_append.mp hj with h1 | h2
        · exact hipre h1
        · have := (List.nodup_append.mp hndl).2.1
          exact (List.nodup_cons.mp this).1 h2
      rw [hother j hji, hlast]
      by_cases hlj : last = j
      · simp [hlj]
      · simp [hlj]
  · obtain ⟨head2, hh2, hch2⟩ := bucketChain_head s _ l2 hl2
    have hnot : ∀ j ∈ l2, j ∉ pre ++ i :: post := fun j hj hmem =>
      hdisj2 slot2 l2 hslot2 hsame hl2 j hmem hj
    have hi2 : i ∉ l2 := fun hmem => hnot i hmem (by simp)
    rw [List.erase_of_not_mem hi2]
    have hslots2 : s'.slots[slot2]? = some head2 := by
      rw [hslots]
      split
      · rw [List.getElem?_set_ne (Ne.symm hsame)]; exact hh2
      · exact hh2
    unfold bucketChain
    rw [hslots2, hlen]
    simp only
    apply chainFrom_unchanged s.entry s'.entry _ _ _ hch2
    intro j hj
    have hji : j ≠ i := fun h => hi2 (h ▸ hj)
    have hjl : ¬ pre.getLast? = some j := fun h =>
      hnot j hj (List.mem_append_left _ (List.mem_of_getLast?_eq_some h))
    rw [hother j hji, if_neg hjl]

/-- In a well-formed state, `Free` of a record with reference count 1 that is
on the chain of the bucket computed from its stored name unlinks exactly that
record: the chain of that bucket is afterwards the chain before with that one
index removed, the chain of every other bucket is as before, and every name
whose converted form differs from the freed name and was found by `Alloc` is
still found, at the same record, with `created = false`. -/
theorem Free_unlinks (s : hashSet) (i : Nat) (e : hashEntry) (l : List Nat)
    (hwf : WellFormed s) (he : s.entry[i]? = some e) (href : e.ref = 1)
    (hl : bucketChain s (hash e.name % s.meta.slotsNum) = some l) (hi : i ∈ l) :
    ∃ s', Free s i = .ok s' ∧
      bucketChain s' (hash e.name % s.meta.slotsNum) = some (l.erase i) ∧
      (∀ slot2, slot2 < s.meta.slotsNum → slot2 ≠ hash e.name % s.meta.slotsNum →
        bucketChain s' slot2 = bucketChain s slot2) ∧
      ∀ (maxNameLength : Nat) (name : List Byte), 10 ≤ maxNameLength →
        specName maxNameLength name ≠ e.name → StoredInBucket maxNameLength s name →
        ∃ j, j ≠ i ∧ Alloc maxNameLength s name = .ok (s, some j, false) ∧
          Alloc maxNameLength s' name = .ok (s', some j, false) := by
  obtain ⟨s', pre, post, hsplit, hipre, hipost, hF, hmeta, hslots, hlen, hfi, hother⟩ :=
    Free_unlink s i e l hwf he href hl hi
  subst hsplit
  have hchains' := Free_chains s s' i e pre post hwf he hl hslots hlen hother
  have hwf' := hwf
  obtain ⟨_, hslen, hspos, _, hchains, _, _, _⟩ := hwf'
  have hslot : hash e.name % s.meta.slotsNum < s.slots.length := by
    rw [hslen]; exact Nat.mod_lt _ hspos
  refine ⟨s', hF, hchains' _ _ (Nat.mod_lt _ hspos) hl, ?_, ?_⟩
  · intro slot2 hs2 hne
    obtain ⟨l2, hl2⟩ := Option.isSome_iff_exists.mp (hchains _ (by rw [hslen]; exact hs2))
    rw [hchains' slot2 l2 hs2 hl2, hl2]
    obtain ⟨fl, hfl⟩ := Option.isSome_iff_exists.mp hwf.2.2.2.2.2.1
    obtain ⟨_, hfacts⟩ := hwf.disjoint_facts fl hfl
    obtain ⟨_, _, hdisj2⟩ := hfacts _ _ hslot hl
    have hi2 : i ∉ l2 := fun hmem =>
      hdisj2 slot2 l2 (by rw [hslen]; exact hs2) hne hl2 i (by simp) hmem
    rw [List.erase_of_not_mem hi2]
  · intro maxNameLength name hm hname hst
    have hc := convertName_eq_specName maxNameLength name hm
    have hsn : hash name % s.meta.slotsNum < s.meta.slotsNum := Nat.mod_lt _ hspos
    obtain ⟨ln, hln⟩ :=
      Option.isSome_iff_exists.mp (hchains _ (by rw [hslen]; exact hsn))
    obtain ⟨headn, hhn, hchn⟩ := bucketChain_head s _ ln hln
    obtain ⟨k, hk, hkn⟩ := hst
    rw [hln, Option.getD_some] at hk
    rw [hc] at hkn
    have hsome : (ln.find? (holdsName s.entry (specName maxNameLength name))).isSome = true :=
      List.find?_isSome.mpr ⟨k, hk, by simp [holdsName, hkn]⟩
    obtain ⟨j, hj⟩ := Option.isSome_iff_exists.mp hsome
    have hpi : holdsName s.entry (specName maxNameLength name) i = false := by
      simp [holdsName, he]
      exact fun h => hname h.symm
    have hpj : holdsName s.entry (specName maxNameLength name) j = true := List.find?_some hj
    have hji : j ≠ i := by
      intro h
      rw [h, hpi] at hpj
      cases hpj
    have hw := allocWalk_eq_find s.entry (specName maxNameLength name) ln (s.entry.length + 1)
      headn none (chainFrom_isChain _ _ _ _ hchn) (chainFrom_length_le _ _ _ _ hchn)
    rw [hj] at hw
    refine ⟨j, hji, Alloc_of_found maxNameLength s name _ headn j hspos hc hhn hw, ?_⟩
    have hln' := hchains' _ ln hsn hln
    obtain ⟨headn', hhn', hchn'⟩ := bucketChain_head s' _ _ hln'
    have hw' := allocWalk_eq_find s'.entry (specName maxNameLength name) (ln.erase i)
      (s'.entry.length + 1) headn' none (chainFrom_isChain _ _ _ _ hchn')
      (chainFrom_length_le _ _ _ _ hchn')
    have hfind : (ln.erase i).find? (holdsName s'.entry (specName maxNameLength name))
        = some j := by
      have hcongr : ∀ k ∈ ln.erase i, holdsName s'.entry (specName maxNameLength name) k
          = holdsName s.entry (specName maxNameLength name) k := by
        intro k hk
        have hndn : ln.Nodup := by
          obtain ⟨fl, hfl⟩ := Option.isSome_iff_exists.mp hwf.2.2.2.2.2.1
          obtain ⟨_, hfacts⟩ := hwf.disjoint_facts fl hfl
          exact (hfacts _ ln (by rw [hslen]; exact hsn) hln).1
        have hki : k ≠ i := fun h => (List.Nodup.mem_erase_iff hndn).mp hk |>.1 h
        unfold holdsName
        rw [hother k hki]
        split <;> simp [Option.map_map, Function.comp]
      rw [find?_congr_on _ _ _ hcongr]
      by_cases hmem : i ∈ ln
      · obtain ⟨a, b, hab⟩ := List.append_of_mem hmem
        have hndn : ln.Nodup := by
          obtain ⟨fl, hfl⟩ := Option.isSome_iff_exists.mp hwf.2.2.2.2.2.1
          obtain ⟨_, hfacts⟩ := hwf.disjoint_facts fl hfl
          exact (hfacts _ ln (by rw [hslen]; exact hsn) hln).1
        subst hab
        have hia : i ∉ a := fun hm2 =>
          (List.nodup_append.mp hndn).2.2 hm2 (List.mem_cons_self _ _)
        rw [List.erase_append_right _ hia, List.erase_cons_head]
        rw [List.find?_append, List.find?_cons_of_neg _ (by simp [hpi])] at hj
        rw [List.find?_append]
        exact hj
      · rw [List.erase_of_not_mem hmem]
        exact hj
    rw [hfind] at hw'
    have hspos' : 0 < s'.meta.slotsNum := by rw [hmeta]; exact hspos
    have hslotn' : s'.slots[hash name % s'.meta.slotsNum]? = some headn' := by
      rw [hmeta]; exact hhn'
    exact Alloc_of_found maxNameLength s' name _ headn' j hspos' hc hslotn' hw'

/-- Instance of `Free_unlinks`: `Free` of the record of "a" in `fullAB`, where
"a" and "b" share the only bucket. -/
theorem Free_unlinks_witness :
    ∃ s', Free fullAB 0 = .ok s' ∧
      bucketChain s' (hash [97] % fullAB.meta.slotsNum) = some ([0, 1].erase 0) ∧
      (∀ slot2, slot2 < fullAB.meta.slotsNum → slot2 ≠ hash [97] % fullAB.meta.slotsNum →
        bucketChain s' slot2 = bucketChain fullAB slot2) ∧
      ∀ (maxNameLength : Nat) (name : List Byte), 10 ≤ maxNameLength →
        specName maxNameLength name ≠ [97] → StoredInBucket maxNameLength fullAB name →
        ∃ j, j ≠ 0 ∧ Alloc maxNameLength fullAB name = .ok (fullAB, some j, false) ∧
          Alloc maxNameLength s' name = .ok (s', some j, false) :=
  Free_unlinks fullAB 0 { name := [97], value := 0, ref := 1, next := 1 } [0, 1]
    (by decide) rfl rfl (by decide) (by decide)

set_option maxRecDepth 100000 in
/-- C14 (evaluation): with `maxNameLength = 107`, the state `heldLong`, reached
from a fresh set by `Alloc` of a 108-byte name, is well-formed; its record 0 is
live with reference count 1 and a stored name of 107 bytes, which is at most
`maxNameLength`. The record is on the chain of bucket 1 while its stored name
hashes to bucket 0, and `Free` does not unlink it: the chain of bucket 1 is
`[0]` before and `[0, 1]` after, not `[0]` with index 0 removed. -/
theorem Free_within_limit_stays_linked :
    newHashSet (blank 2 2) 284 2 2 true = .ok fresh22 ∧
    Alloc 107 fresh22 longName = .ok (heldLong, some 0, true) ∧
    WellFormed heldLong ∧
    (heldLong.entry[0]?).map (fun e => (e.ref, e.name.length)) = some (1, 107) ∧
    bucketChain heldLong 1 = some [0] ∧
    (heldLong.entry[0]?).map (fun e => hash e.name % heldLong.meta.slotsNum) = some 0 ∧
    Free heldLong 0 = .ok freedLong ∧
    bucketChain freedLong 1 = some [0, 1] ∧
    bucketChain freedLong 1 ≠ some ([0].erase 0) :=
  ⟨by decide, by decide, by decide, by decide, by decide, by decide, by decide, by decide,
    by decide⟩

end Shm
